import Mathlib

/-!
Verification development for the beamer2animate repository.

The embedding models, from the source:
  * `src/beamer2animate/pptx_builder.py` — the click-indexed timing-tree
    builder (`add_appear_animation`, `add_disappear_animation`) over a
    shallow XML element model (lxml etree elements become `XML` nodes;
    namespaced tag names become the `Tag` enumeration; `etree.SubElement`
    becomes functional child appending; a Python `AttributeError` /
    `TypeError` on a `None` navigation result becomes `Option.none`).
  * `src/beamer2animate/converter.py` — `_add_animations` (as the ordered
    event trace of its `add_appear_animation` / `add_disappear_animation`
    calls), `_fit_content_width` (over `ℚ`), `_render_block`, the pass-1
    render loop of `_process_frame`, and `_get_env_name`.
  * `src/beamer2animate/renderer.py` — the cumulative render loops
    (`render_align_cumulative`, `render_itemize_cumulative`,
    `render_text_cumulative`, `render_text_block`), parameterized by a
    typesetting oracle `tb : String → Option (Nat × Nat)` standing for
    `render_latex_to_image` (the fragment either yields a bitmap with
    pixel dimensions, or fails).
-/

namespace B2A

/-- XML tag names used by the timing tree code (the `p:` namespaced names
of pptx_builder.py, plus `pic` for picture shapes placed on a slide). -/
inductive Tag where
  | timing | tnLst | par | cTn | childTnLst | seq
  | prevCondLst | nextCondLst | cond | tgtEl | sldTgt | spTgt
  | stCondLst | set | cBhvr | attrNameLst | attrName | toEl | strVal
  | pic
deriving DecidableEq, Repr

/-- An lxml etree element: tag, attributes (attribute values and element
text are stored as strings; element text is kept under the "text" key),
and ordered child elements. -/
inductive XML where
  | elem (tag : Tag) (attrs : List (String × String)) (children : List XML)
deriving Repr

/-- The tag of an element. -/
def XML.tag : XML → Tag
  | .elem t _ _ => t

/-- The attribute list of an element. -/
def XML.attrs : XML → List (String × String)
  | .elem _ a _ => a

/-- The child list of an element. -/
def XML.children : XML → List XML
  | .elem _ _ c => c

/-- `parent.find('p:tag', NSMAP)`: first direct child with the tag. -/
def findChildL (t : Tag) : List XML → Option XML
  | [] => none
  | x :: xs => if x.tag = t then some x else findChildL t xs

/-- `parent.findall('p:tag', NSMAP)`: all direct children with the tag. -/
def findallL (t : Tag) (l : List XML) : List XML :=
  l.filter (fun x => x.tag = t)

/-- `etree.SubElement(x, tag)` followed by building `y` under it:
append `y` as the last child of `x`. -/
def appendChild (x : XML) (y : XML) : XML :=
  match x with
  | .elem t a c => .elem t a (c ++ [y])

/-- Rebuild `x` with a new child list. -/
def withChildren (x : XML) (c : List XML) : XML :=
  match x with
  | .elem t a _ => .elem t a c

/-- Update the first direct child with tag `t` using `f` (which may fail,
modelling an exception inside the update); `none` when `t` is absent or
`f` fails. -/
def updFirstL (t : Tag) (f : XML → Option XML) : List XML → Option (List XML)
  | [] => none
  | x :: xs =>
    if x.tag = t then (f x).map (· :: xs)
    else (updFirstL t f xs).map (x :: ·)

/-- `pars = x.findall('p:t'); pars[n]` followed by an in-place mutation of
that element: update the `n`-th direct child with tag `t` (counting only
children with that tag) using `f`; `none` when there are not enough
matches or `f` fails. -/
def updNthTagL (t : Tag) (n : Nat) (f : XML → Option XML) :
    List XML → Option (List XML)
  | [] => none
  | x :: xs =>
    if x.tag = t then
      match n with
      | 0 => (f x).map (· :: xs)
      | m + 1 => (updNthTagL t m f xs).map (x :: ·)
    else
      (updNthTagL t n f xs).map (x :: ·)

/-- `y = x.find('p:t')` with no `None` check before using `y`: update the
first child with tag `t`, crashing (`none`) when it does not exist.
Models the unchecked navigations of pptx_builder.py. -/
def updExisting (t : Tag) (f : XML → Option XML) (x : XML) : Option XML :=
  match findChildL t x.children with
  | none => none
  | some _ => (updFirstL t f x.children).map (withChildren x)

/-- Find-or-create navigation: `y = x.find('p:t'); if y is None:
y = etree.SubElement(x, 't') ...`, then continue working under `y` via
`f`.  When created, the fresh element `mk` is processed by `f` and
appended; when found, the first existing child is updated by `f`. -/
def withChild (t : Tag) (mk : XML) (f : XML → Option XML) (x : XML) : Option XML :=
  match findChildL t x.children with
  | none => (f mk).map (appendChild x)
  | some _ => (updFirstL t f x.children).map (withChildren x)

/-- Result of updating the first preorder descendant with a given tag. -/
inductive Upd where
  | notFound
  | crash
  | ok (l : List XML)
deriving Repr

/-- `slide._element.find('.//p:timing')` combined with an in-place update
of the found element: first preorder (document-order) descendant with tag
`t` is updated by `f`; `notFound` when no descendant has the tag, `crash`
when `f` fails on it. -/
def updDescL (t : Tag) (f : XML → Option XML) : List XML → Upd
  | [] => .notFound
  | XML.elem tg a c :: xs =>
    if tg = t then
      match f (XML.elem tg a c) with
      | none => .crash
      | some y => .ok (y :: xs)
    else
      match updDescL t f c with
      | .ok cNew => .ok (XML.elem tg a cNew :: xs)
      | .crash => .crash
      | .notFound =>
        match updDescL t f xs with
        | .ok xsNew => .ok (XML.elem tg a c :: xsNew)
        | .crash => .crash
        | .notFound => .notFound

/-- `element.find('.//p:t')`: first preorder descendant with tag `t`. -/
def findDescL (t : Tag) : List XML → Option XML
  | [] => none
  | XML.elem tg a c :: xs =>
    if tg = t then some (XML.elem tg a c)
    else
      match findDescL t c with
      | some r => some r
      | none => findDescL t xs

/-- Number of elements with tag `t` anywhere in the forest. -/
def countDescL (t : Tag) : List XML → Nat
  | [] => 0
  | XML.elem tg _ c :: xs =>
    (if tg = t then 1 else 0) + countDescL t c + countDescL t xs

/-! ## Timing-tree builder (pptx_builder.py) -/

/-- The entrance-effect subtree appended inside a click node by
`add_appear_animation` (pptx_builder.py lines 213-266): the `anim_par`
chain down to the `set` behaviour flipping `style.visibility` to
"visible" on shape `sid`.  `delay` is the function's `delay` argument
(default 0, never overridden by callers in this repository). -/
def entranceChain (sid ci delay : Nat) : XML :=
  .elem .par []
    [.elem .cTn [("id", toString (101 + ci * 10)), ("fill", "hold")]
      [.elem .stCondLst [] [.elem .cond [("delay", toString delay)] []],
       .elem .childTnLst []
         [.elem .par []
           [.elem .cTn
              [("id", toString (102 + ci * 10)), ("presetID", "1"),
               ("presetClass", "entr"), ("presetSubtype", "0"),
               ("fill", "hold"), ("nodeType", "clickEffect")]
              [.elem .stCondLst [] [.elem .cond [("delay", "0")] []],
               .elem .childTnLst []
                 [.elem .set []
                   [.elem .cBhvr []
                     [.elem .cTn
                        [("id", toString (103 + ci * 10)), ("dur", "1"),
                         ("fill", "hold")]
                        [.elem .stCondLst [] [.elem .cond [("delay", "0")] []]],
                      .elem .tgtEl [] [.elem .spTgt [("spid", toString sid)] []],
                      .elem .attrNameLst []
                        [.elem .attrName [("text", "style.visibility")] []]],
                    .elem .toEl [] [.elem .strVal [("val", "visible")] []]]]]]]]]

/-- The exit-effect subtree appended inside an existing click node by
`add_disappear_animation` (pptx_builder.py lines 301-349): `presetClass`
"exit", `nodeType` "withEffect", flipping `style.visibility` to
"hidden" on shape `sid`. -/
def exitChain (sid ci : Nat) : XML :=
  .elem .par []
    [.elem .cTn [("id", toString (200 + ci * 10)), ("fill", "hold")]
      [.elem .stCondLst [] [.elem .cond [("delay", "0")] []],
       .elem .childTnLst []
         [.elem .par []
           [.elem .cTn
              [("id", toString (201 + ci * 10)), ("presetID", "1"),
               ("presetClass", "exit"), ("presetSubtype", "0"),
               ("fill", "hold"), ("nodeType", "withEffect")]
              [.elem .stCondLst [] [.elem .cond [("delay", "0")] []],
               .elem .childTnLst []
                 [.elem .set []
                   [.elem .cBhvr []
                     [.elem .cTn
                        [("id", toString (202 + ci * 10)), ("dur", "1"),
                         ("fill", "hold")]
                        [.elem .stCondLst [] [.elem .cond [("delay", "0")] []]],
                      .elem .tgtEl [] [.elem .spTgt [("spid", toString sid)] []],
                      .elem .attrNameLst []
                        [.elem .attrName [("text", "style.visibility")] []]],
                    .elem .toEl [] [.elem .strVal [("val", "hidden")] []]]]]]]]]

/-- A click node (`click_par` with its `click_cTn`, pptx_builder.py lines
199-211) whose child time-node list holds the entrance chain for
(`sid`, `ci`) followed by the subtrees in `extra`.  `add_appear_animation`
creates it with `extra = []`; `add_disappear_animation` appends exit
chains into `extra`. -/
def clickParGen (sid ci delay : Nat) (extra : List XML) : XML :=
  .elem .par []
    [.elem .cTn [("id", toString (100 + ci * 10)), ("fill", "hold")]
      [.elem .stCondLst [] [.elem .cond [("delay", "indefinite")] []],
       .elem .childTnLst [] (entranceChain sid ci delay :: extra)]]

/-- The root `cTn` of the main parallel time node (`main_cTn`,
pptx_builder.py lines 142-146 / 150-154), with no children yet. -/
def mainCTnFresh : XML :=
  .elem .cTn
    [("id", "1"), ("dur", "indefinite"), ("restart", "never"),
     ("nodeType", "tmRoot")] []

/-- The condition lists attached to a freshly created main sequence
(pptx_builder.py lines 181-194). -/
def prevCondNode : XML :=
  .elem .prevCondLst []
    [.elem .cond [("evt", "onPrev"), ("delay", "0")]
      [.elem .tgtEl [] [.elem .sldTgt [] []]]]

/-- See `prevCondNode`. -/
def nextCondNode : XML :=
  .elem .nextCondLst []
    [.elem .cond [("evt", "onNext"), ("delay", "0")]
      [.elem .tgtEl [] [.elem .sldTgt [] []]]]

/-- A main sequence node holding the click nodes `cps` (pptx_builder.py
lines 168-194): `seq` with its `cTn` (id 2, `mainSeq`), whose child list
is the sequence of click nodes, followed by the prev/next condition
lists. -/
def seqNode (cps : List XML) : XML :=
  .elem .seq [("concurrent", "1"), ("nextAc", "seek")]
    [.elem .cTn [("id", "2"), ("dur", "indefinite"), ("nodeType", "mainSeq")]
      [.elem .childTnLst [] cps],
     prevCondNode, nextCondNode]

/-- `add_appear_animation(slide, shape, click_index, delay)`
(pptx_builder.py lines 115-266), acting on the slide element's child
list.  Returns `none` when the Python code would raise (an existing
`seq` lacking its `cTn` or child list).  The navigation follows the
source exactly: find-or-create `timing` (descendant search), `tnLst`,
`par` (creating its `cTn` alongside), re-find-or-create `cTn`,
find-or-create `childTnLst`, take the first existing `seq` or build a
fresh one, then unconditionally append a new click parallel holding the
entrance effect for `shape` at `click_index`. -/
def addAppearAnimation (slide : List XML) (sid ci : Nat) (delay : Nat := 0) :
    Option (List XML) :=
  let processSeq : XML → Option XML :=
    updExisting .cTn
      (updExisting .childTnLst
        (fun y => some (appendChild y (clickParGen sid ci delay []))))
  let processChildTnLst : XML → Option XML := fun x =>
    match findChildL .seq x.children with
    | none => some (appendChild x (seqNode [clickParGen sid ci delay []]))
    | some _ => (updFirstL .seq processSeq x.children).map (withChildren x)
  let processMainCTn : XML → Option XML :=
    withChild .childTnLst (.elem .childTnLst [] []) processChildTnLst
  let processPar : XML → Option XML :=
    withChild .cTn mainCTnFresh processMainCTn
  let processTnLst : XML → Option XML :=
    withChild .par (.elem .par [] [mainCTnFresh]) processPar
  let processTiming : XML → Option XML :=
    withChild .tnLst (.elem .tnLst [] []) processTnLst
  match updDescL .timing processTiming slide with
  | .ok l => some l
  | .crash => none
  | .notFound => (processTiming (.elem .timing [] [])).map (fun y => slide ++ [y])

/-- The in-place mutation `add_disappear_animation` performs on the
selected click parallel: navigate to its `cTn` and that node's
`childTnLst` (crashing when either is missing, as the unchecked Python
navigation would) and append the exit chain. -/
def addExitTo (sid ci : Nat) : XML → Option XML :=
  updExisting .cTn
    (updExisting .childTnLst
      (fun y => some (appendChild y (exitChain sid ci))))

/-- `add_disappear_animation(slide, shape, click_index)` (pptx_builder.py
lines 269-349) on the slide element's child list.  Missing `timing`,
`tnLst` or `main_par` are checked in the source and make the call a
no-op (`some slide`); every deeper navigation (`main_cTn`,
`childTnLst`, `seq`, `seq_cTn`, `seq_childTnLst`, and the selected click
parallel's inner nodes) is unchecked, so its absence crashes (`none`).
When `click_index` is not below the number of click parallels the call
returns without touching the tree. -/
def addDisappearAnimation (slide : List XML) (sid ci : Nat) :
    Option (List XML) :=
  let dSeqChildTnLst : XML → Option XML := fun x =>
    let clickPars := findallL .par x.children
    if ci < clickPars.length then
      (updNthTagL .par ci (addExitTo sid ci) x.children).map (withChildren x)
    else
      some x
  let dSeq : XML → Option XML :=
    updExisting .cTn (updExisting .childTnLst dSeqChildTnLst)
  let dChildTnLst : XML → Option XML := updExisting .seq dSeq
  let dMainCTn : XML → Option XML := updExisting .childTnLst dChildTnLst
  let dPar : XML → Option XML := updExisting .cTn dMainCTn
  let dTnLst : XML → Option XML := fun tn =>
    match findChildL .par tn.children with
    | none => some tn
    | some _ => (updFirstL .par dPar tn.children).map (withChildren tn)
  let dTiming : XML → Option XML := fun tm =>
    match findChildL .tnLst tm.children with
    | none => some tm
    | some _ => (updFirstL .tnLst dTnLst tm.children).map (withChildren tm)
  match updDescL .timing dTiming slide with
  | .ok l => some l
  | .crash => none
  | .notFound => some slide

/-! ## Observers on a slide's timing state -/

/-- Navigate, exactly as `add_disappear_animation` does, from the slide
down to the sequence's child time-node list (the list that holds the
click parallels). -/
def seqChildListOf (slide : List XML) : Option XML :=
  (findDescL .timing slide).bind fun tm =>
  (findChildL .tnLst tm.children).bind fun tn =>
  (findChildL .par tn.children).bind fun mp =>
  (findChildL .cTn mp.children).bind fun mc =>
  (findChildL .childTnLst mc.children).bind fun ch =>
  (findChildL .seq ch.children).bind fun sq =>
  (findChildL .cTn sq.children).bind fun sc =>
  findChildL .childTnLst sc.children

/-- The click parallels of the slide's (unique) timing sequence, in
order: `seq_childTnLst.findall('p:par')` in the source.  Empty when the
timing tree or any level of it is absent. -/
def clickParsOf (slide : List XML) : List XML :=
  match seqChildListOf slide with
  | some x => findallL .par x.children
  | none => []

/-- Number of parallel nodes sitting directly under the timing tree's
time-node list (the "root parallel" position). -/
def rootParCount (slide : List XML) : Nat :=
  match findDescL .timing slide with
  | none => 0
  | some tm =>
    match findChildL .tnLst tm.children with
    | none => 0
    | some tn => (findallL .par tn.children).length

/-! ## Canonical timing states

`add_appear_animation` builds one fixed tree shape on first use and only
ever appends click parallels to it afterwards; `add_disappear_animation`
only ever appends exit chains inside an existing click parallel.  The
definitions below name those shapes so the state after any call sequence
can be characterised. -/

/-- The complete timing element built by the first
`add_appear_animation` call, holding click parallels `cps`:
`timing → tnLst → par → cTn(tmRoot) → childTnLst → seq(mainSeq)`. -/
def builtTiming (cps : List XML) : XML :=
  .elem .timing []
    [.elem .tnLst []
      [.elem .par []
        [.elem .cTn
          [("id", "1"), ("dur", "indefinite"), ("restart", "never"),
           ("nodeType", "tmRoot")]
          [.elem .childTnLst [] [seqNode cps]]]]]

/-- A picture shape placed on the slide by `add_image_to_slide`; at the
level of the timing code it is an element that is not a timing tree and
contains none. -/
def picShape (sid : Nat) : XML :=
  .elem .pic [("spid", toString sid)] []

/-- A freshly assembled slide: picture shapes only, no timing element. -/
def picSlide (ids : List Nat) : List XML :=
  ids.map picShape

/-- A click parallel as the builder functions shape it: created by
`add_appear_animation` for some shape/click/delay, with some list of
exit chains appended afterwards by `add_disappear_animation`. -/
def IsClickShape (cp : XML) : Prop :=
  ∃ s c d ex, cp = clickParGen s c d ex ∧
    ∀ e ∈ ex, ∃ s2 c2, e = exitChain s2 c2

/-- One builder call on a slide's timing state. -/
inductive TimingCall where
  | appear (sid ci delay : Nat)
  | disappear (sid ci : Nat)
deriving Repr

/-- Apply one builder call. -/
def applyCall (slide : List XML) : TimingCall → Option (List XML)
  | .appear sid ci d => addAppearAnimation slide sid ci d
  | .disappear sid ci => addDisappearAnimation slide sid ci

/-- Run a sequence of builder calls, propagating a crash. -/
def runCalls (slide : List XML) : List TimingCall → Option (List XML)
  | [] => some slide
  | c :: cs =>
    match applyCall slide c with
    | some s2 => runCalls s2 cs
    | none => none

/-! ## Lemmas: how the builder transforms canonical states -/

theorem updDescL_of_findDescL_none (t : Tag) (f : XML → Option XML) :
    ∀ l : List XML, findDescL t l = none → updDescL t f l = .notFound := by
  intro l
  induction l using findDescL.induct t with
  | _ => simp_all [findDescL, updDescL]

theorem findDescL_pic_cons (t : Tag) (ht : t ≠ .pic) (i : Nat) (rest : List XML) :
    findDescL t (picShape i :: rest) = findDescL t rest := by
  have hne : ¬ (Tag.pic = t) := fun h => ht h.symm
  simp [picShape, findDescL, hne]

theorem findDescL_picSlide_append (t : Tag) (ht : t ≠ .pic) (ids : List Nat)
    (rest : List XML) :
    findDescL t (picSlide ids ++ rest) = findDescL t rest := by
  induction ids with
  | nil => simp [picSlide]
  | cons i ids ih =>
    simpa [picSlide, findDescL_pic_cons t ht] using ih

theorem updDescL_pic_cons (t : Tag) (ht : t ≠ .pic) (f : XML → Option XML)
    (i : Nat) (rest : List XML) :
    updDescL t f (picShape i :: rest) =
      match updDescL t f rest with
      | .ok l => .ok (picShape i :: l)
      | .crash => .crash
      | .notFound => .notFound := by
  have hne : ¬ (Tag.pic = t) := fun h => ht h.symm
  simp [picShape, updDescL, hne]

theorem updDescL_picSlide_append (t : Tag) (ht : t ≠ .pic) (f : XML → Option XML)
    (ids : List Nat) (rest : List XML) :
    updDescL t f (picSlide ids ++ rest) =
      match updDescL t f rest with
      | .ok l => .ok (picSlide ids ++ l)
      | .crash => .crash
      | .notFound => .notFound := by
  induction ids with
  | nil => cases h : updDescL t f rest <;> simp [picSlide, h]
  | cons i ids ih =>
    have step := updDescL_pic_cons t ht f i (picSlide ids ++ rest)
    cases h : updDescL t f rest <;>
      simp_all [picSlide, List.cons_append]

/-- `add_appear_animation` on a slide whose timing tree already exists:
the whole fixed structure is found and reused, and exactly one new click
parallel is appended at the end of the sequence's child list. -/
theorem appear_step (ids : List Nat) (cps : List XML) (sid ci d : Nat) :
    addAppearAnimation (picSlide ids ++ [builtTiming cps]) sid ci d =
      some (picSlide ids ++ [builtTiming (cps ++ [clickParGen sid ci d []])]) := by
  have key : updDescL .timing
      (withChild .tnLst (.elem .tnLst [] [])
        (withChild .par (.elem .par [] [mainCTnFresh])
          (withChild .cTn mainCTnFresh
            (withChild .childTnLst (.elem .childTnLst [] [])
              (fun x =>
                match findChildL .seq x.children with
                | none => some (appendChild x (seqNode [clickParGen sid ci d []]))
                | some _ =>
                  (updFirstL .seq
                    (updExisting .cTn
                      (updExisting .childTnLst
                        (fun y => some (appendChild y (clickParGen sid ci d [])))))
                    x.children).map (withChildren x))))))
      [builtTiming cps] =
      .ok [builtTiming (cps ++ [clickParGen sid ci d []])] := by
    simp [updDescL, builtTiming, seqNode, withChild, updExisting, updFirstL,
          findChildL, appendChild, withChildren, XML.children, XML.tag,
          mainCTnFresh, prevCondNode, nextCondNode]
  rw [addAppearAnimation, updDescL_picSlide_append .timing (by simp) _ ids
        [builtTiming cps]]
  rw [key]

/-- `add_appear_animation` on a slide with no timing element: the full
tree is created and holds exactly the one new click parallel. -/
theorem appear_fresh (ids : List Nat) (sid ci d : Nat) :
    addAppearAnimation (picSlide ids) sid ci d =
      some (picSlide ids ++ [builtTiming [clickParGen sid ci d []]]) := by
  have hnone : findDescL .timing (picSlide ids) = none := by
    simpa [findDescL] using findDescL_picSlide_append .timing (by simp) ids []
  rw [addAppearAnimation,
      updDescL_of_findDescL_none .timing _ (picSlide ids) hnone]
  simp [withChild, updFirstL, findChildL, appendChild, withChildren,
        XML.children, XML.tag, mainCTnFresh, builtTiming, seqNode,
        prevCondNode, nextCondNode]

theorem clickParGen_tag (s c d : Nat) (ex : List XML) :
    (clickParGen s c d ex).tag = .par := rfl

theorem isClickShape_tag {cp : XML} (h : IsClickShape cp) : cp.tag = .par := by
  obtain ⟨s, c, d, ex, rfl, -⟩ := h
  rfl

theorem findallL_of_clickShapes {cps : List XML}
    (h : ∀ cp ∈ cps, IsClickShape cp) : findallL .par cps = cps := by
  refine List.filter_eq_self.mpr ?_
  intro cp hcp
  simp [isClickShape_tag (h cp hcp)]

theorem addExitTo_clickParGen (sid ci s c d : Nat) (ex : List XML) :
    addExitTo sid ci (clickParGen s c d ex) =
      some (clickParGen s c d (ex ++ [exitChain sid ci])) := rfl

theorem updNthTagL_clickShapes (sid ci : Nat) :
    ∀ (cps : List XML) (n : Nat), (∀ cp ∈ cps, IsClickShape cp) →
      n < cps.length →
      ∃ cps2, updNthTagL .par n (addExitTo sid ci) cps = some cps2 ∧
        cps2.length = cps.length ∧ ∀ cp ∈ cps2, IsClickShape cp := by
  intro cps
  induction cps with
  | nil => intro n _ hn; exact absurd hn (by simp)
  | cons cp cps ih =>
    intro n h hn
    obtain ⟨s, c, d, ex, rfl, hex⟩ := h cp (by simp)
    match n with
    | 0 =>
      refine ⟨clickParGen s c d (ex ++ [exitChain sid ci]) :: cps, ?_, by simp, ?_⟩
      · simp [updNthTagL, clickParGen_tag, addExitTo_clickParGen]
      · intro x hx
        rcases List.mem_cons.mp hx with rfl | hx
        · refine ⟨s, c, d, ex ++ [exitChain sid ci], rfl, ?_⟩
          intro e he
          rcases List.mem_append.mp he with he | he
          · exact hex e he
          · exact ⟨sid, ci, by simpa using he⟩
        · exact h x (List.mem_cons_of_mem _ hx)
    | m + 1 =>
      obtain ⟨cps2, heq, hlen, hgood⟩ :=
        ih m (fun x hx => h x (List.mem_cons_of_mem _ hx)) (by simpa using hn)
      refine ⟨clickParGen s c d ex :: cps2, ?_, by simp [hlen], ?_⟩
      · simp [updNthTagL, clickParGen_tag, heq]
      · intro x hx
        rcases List.mem_cons.mp hx with rfl | hx
        · exact ⟨s, c, d, ex, rfl, hex⟩
        · exact hgood x hx

/-- `add_disappear_animation` when a click parallel exists at the
requested index: the exit chain is appended inside that click parallel
and nothing else changes. -/
theorem disappear_step (ids : List Nat) (cps : List XML) (sid ci : Nat)
    (h : ∀ cp ∈ cps, IsClickShape cp) (hlt : ci < cps.length) :
    ∃ cps2,
      addDisappearAnimation (picSlide ids ++ [builtTiming cps]) sid ci =
        some (picSlide ids ++ [builtTiming cps2]) ∧
      cps2.length = cps.length ∧ ∀ cp ∈ cps2, IsClickShape cp := by
  obtain ⟨cps2, hupd, hlen, hgood⟩ := updNthTagL_clickShapes sid ci cps ci h hlt
  refine ⟨cps2, ?_, hlen, hgood⟩
  have hfil := findallL_of_clickShapes h
  rw [addDisappearAnimation, updDescL_picSlide_append .timing (by simp) _ ids
        [builtTiming cps]]
  simp [updDescL, builtTiming, seqNode, updExisting, updFirstL, findChildL,
        withChildren, XML.children, XML.tag, prevCondNode, nextCondNode,
        hfil, hlt, hupd]

/-- `add_disappear_animation` when no click parallel exists at the
requested index: a pure no-op on the canonical state. -/
theorem disappear_noop (ids : List Nat) (cps : List XML) (sid ci : Nat)
    (h : ∀ cp ∈ cps, IsClickShape cp) (hge : cps.length ≤ ci) :
    addDisappearAnimation (picSlide ids ++ [builtTiming cps]) sid ci =
      some (picSlide ids ++ [builtTiming cps]) := by
  have hfil := findallL_of_clickShapes h
  rw [addDisappearAnimation, updDescL_picSlide_append .timing (by simp) _ ids
        [builtTiming cps]]
  simp [updDescL, builtTiming, seqNode, updExisting, updFirstL, findChildL,
        withChildren, XML.children, XML.tag, prevCondNode, nextCondNode,
        hfil, Nat.not_lt.mpr hge]

/-- `add_disappear_animation` on any slide with no timing element is a
no-op (the first `None` check in the source). -/
theorem disappear_no_timing (slide : List XML) (sid ci : Nat)
    (h : findDescL .timing slide = none) :
    addDisappearAnimation slide sid ci = some slide := by
  rw [addDisappearAnimation, updDescL_of_findDescL_none .timing _ slide h]

/-- The invariant the builder maintains on a slide that starts as a set
of picture shapes: either no timing tree yet, or exactly the one
canonical tree whose click parallels all have the builder's shape. -/
def GoodState (ids : List Nat) (st : List XML) : Prop :=
  st = picSlide ids ∨
    ∃ cps, st = picSlide ids ++ [builtTiming cps] ∧ ∀ cp ∈ cps, IsClickShape cp

theorem applyCall_good {ids : List Nat} {st : List XML} (call : TimingCall)
    (h : GoodState ids st) :
    ∃ st2, applyCall st call = some st2 ∧ GoodState ids st2 := by
  rcases call with ⟨sid, ci, d⟩ | ⟨sid, ci⟩
  · rcases h with rfl | ⟨cps, rfl, hcps⟩
    · refine ⟨_, appear_fresh ids sid ci d, Or.inr ⟨[clickParGen sid ci d []], rfl, ?_⟩⟩
      intro cp hcp
      rcases List.mem_singleton.mp hcp with rfl
      exact ⟨sid, ci, d, [], rfl, by simp⟩
    · refine ⟨_, appear_step ids cps sid ci d,
        Or.inr ⟨cps ++ [clickParGen sid ci d []], rfl, ?_⟩⟩
      intro cp hcp
      rcases List.mem_append.mp hcp with hcp | hcp
      · exact hcps cp hcp
      · rcases List.mem_singleton.mp hcp with rfl
        exact ⟨sid, ci, d, [], rfl, by simp⟩
  · rcases h with rfl | ⟨cps, rfl, hcps⟩
    · refine ⟨_, disappear_no_timing (picSlide ids) sid ci ?_, Or.inl rfl⟩
      simpa [findDescL] using findDescL_picSlide_append .timing (by simp) ids []
    · rcases Nat.lt_or_ge ci cps.length with hlt | hge
      · obtain ⟨cps2, heq, hlen, hgood⟩ := disappear_step ids cps sid ci hcps hlt
        exact ⟨_, heq, Or.inr ⟨cps2, rfl, hgood⟩⟩
      · exact ⟨_, disappear_noop ids cps sid ci hcps hge,
          Or.inr ⟨cps, rfl, hcps⟩⟩

theorem runCalls_good {ids : List Nat} :
    ∀ (calls : List TimingCall) (st0 st : List XML), GoodState ids st0 →
      runCalls st0 calls = some st → GoodState ids st := by
  intro calls
  induction calls with
  | nil =>
    intro st0 st h0 hr
    simp [runCalls] at hr
    exact hr ▸ h0
  | cons c cs ih =>
    intro st0 st h0 hr
    obtain ⟨st2, h2, hg2⟩ := applyCall_good c h0
    rw [runCalls, h2] at hr
    exact ih st2 st hg2 hr

/-! ## Counting nodes in canonical states -/

theorem countDescL_append (t : Tag) (l1 l2 : List XML) :
    countDescL t (l1 ++ l2) = countDescL t l1 + countDescL t l2 := by
  induction l1 with
  | nil => simp [countDescL]
  | cons x l1 ih =>
    cases x with
    | elem tg a c => simp [countDescL, ih]; omega

theorem countDescL_picSlide (t : Tag) (ht : t ≠ .pic) (ids : List Nat) :
    countDescL t (picSlide ids) = 0 := by
  have hne : ¬ (Tag.pic = t) := fun h => ht h.symm
  induction ids with
  | nil => simp [picSlide, countDescL]
  | cons i ids ih => simp [picSlide, picShape, countDescL, hne] at ih ⊢; exact ih

theorem countDescL_timing_clickParGen (s c d : Nat) (ex : List XML) :
    countDescL .timing [clickParGen s c d ex] = countDescL .timing ex := by
  simp [clickParGen, entranceChain, countDescL]

theorem countDescL_tnLst_clickParGen (s c d : Nat) (ex : List XML) :
    countDescL .tnLst [clickParGen s c d ex] = countDescL .tnLst ex := by
  simp [clickParGen, entranceChain, countDescL]

theorem countDescL_seq_clickParGen (s c d : Nat) (ex : List XML) :
    countDescL .seq [clickParGen s c d ex] = countDescL .seq ex := by
  simp [clickParGen, entranceChain, countDescL]

theorem countDescL_exitChain (t : Tag) (ht1 : t ≠ .par) (ht2 : t ≠ .cTn)
    (ht3 : t ≠ .stCondLst) (ht4 : t ≠ .cond) (ht5 : t ≠ .childTnLst)
    (ht6 : t ≠ .set) (ht7 : t ≠ .cBhvr) (ht8 : t ≠ .tgtEl) (ht9 : t ≠ .spTgt)
    (ht10 : t ≠ .attrNameLst) (ht11 : t ≠ .attrName) (ht12 : t ≠ .toEl)
    (ht13 : t ≠ .strVal) (s c : Nat) :
    countDescL t [exitChain s c] = 0 := by
  have h1 : ¬ (Tag.par = t) := fun h => ht1 h.symm
  have h2 : ¬ (Tag.cTn = t) := fun h => ht2 h.symm
  have h3 : ¬ (Tag.stCondLst = t) := fun h => ht3 h.symm
  have h4 : ¬ (Tag.cond = t) := fun h => ht4 h.symm
  have h5 : ¬ (Tag.childTnLst = t) := fun h => ht5 h.symm
  have h6 : ¬ (Tag.set = t) := fun h => ht6 h.symm
  have h7 : ¬ (Tag.cBhvr = t) := fun h => ht7 h.symm
  have h8 : ¬ (Tag.tgtEl = t) := fun h => ht8 h.symm
  have h9 : ¬ (Tag.spTgt = t) := fun h => ht9 h.symm
  have h10 : ¬ (Tag.attrNameLst = t) := fun h => ht10 h.symm
  have h11 : ¬ (Tag.attrName = t) := fun h => ht11 h.symm
  have h12 : ¬ (Tag.toEl = t) := fun h => ht12 h.symm
  have h13 : ¬ (Tag.strVal = t) := fun h => ht13 h.symm
  simp [exitChain, countDescL, h1, h2, h3, h4, h5, h6, h7, h8, h9, h10, h11,
        h12, h13]

theorem countDescL_exitList (t : Tag)
    (htcase : t = .timing ∨ t = .tnLst ∨ t = .seq) :
    ∀ ex : List XML, (∀ e ∈ ex, ∃ s2 c2, e = exitChain s2 c2) →
      countDescL t ex = 0 := by
  intro ex
  induction ex with
  | nil => intro _; simp [countDescL]
  | cons e ex ihe =>
    intro hex
    obtain ⟨s2, c2, rfl⟩ := hex e (by simp)
    have he0 : countDescL t [exitChain s2 c2] = 0 := by
      rcases htcase with rfl | rfl | rfl <;>
        exact countDescL_exitChain _ (by simp) (by simp) (by simp) (by simp)
          (by simp) (by simp) (by simp) (by simp) (by simp) (by simp)
          (by simp) (by simp) (by simp) s2 c2
    have hrest := ihe (fun e2 he2 => hex e2 (List.mem_cons_of_mem _ he2))
    have hsplit : countDescL t (exitChain s2 c2 :: ex) =
        countDescL t [exitChain s2 c2] + countDescL t ex := by
      simpa using countDescL_append t [exitChain s2 c2] ex
    omega

theorem countDescL_clickShapes {cps : List XML}
    (h : ∀ cp ∈ cps, IsClickShape cp) :
    countDescL .timing cps = 0 ∧ countDescL .tnLst cps = 0 ∧
      countDescL .seq cps = 0 := by
  induction cps with
  | nil => simp [countDescL]
  | cons cp cps ih =>
    obtain ⟨htl, htn, hsq⟩ := ih (fun x hx => h x (List.mem_cons_of_mem _ hx))
    obtain ⟨s, c, d, ex, rfl, hex⟩ := h cp (by simp)
    have hex0 : ∀ t : Tag, t = .timing ∨ t = .tnLst ∨ t = .seq →
        countDescL t ex = 0 := fun t htcase => countDescL_exitList t htcase ex hex
    have hcons : ∀ t : Tag, countDescL t (clickParGen s c d ex :: cps) =
        countDescL t [clickParGen s c d ex] + countDescL t cps := by
      intro t
      simpa using countDescL_append t [clickParGen s c d ex] cps
    refine ⟨?_, ?_, ?_⟩
    · rw [hcons, countDescL_timing_clickParGen, hex0 .timing (by simp), htl]
    · rw [hcons, countDescL_tnLst_clickParGen, hex0 .tnLst (by simp), htn]
    · rw [hcons, countDescL_seq_clickParGen, hex0 .seq (by simp), hsq]

theorem countDescL_timing_builtTiming (cps : List XML) :
    countDescL .timing [builtTiming cps] = 1 + countDescL .timing cps := by
  simp [builtTiming, seqNode, prevCondNode, nextCondNode, countDescL]

theorem countDescL_tnLst_builtTiming (cps : List XML) :
    countDescL .tnLst [builtTiming cps] = 1 + countDescL .tnLst cps := by
  simp [builtTiming, seqNode, prevCondNode, nextCondNode, countDescL]

theorem countDescL_seq_builtTiming (cps : List XML) :
    countDescL .seq [builtTiming cps] = 1 + countDescL .seq cps := by
  simp [builtTiming, seqNode, prevCondNode, nextCondNode, countDescL]

theorem findDescL_timing_builtTiming (cps : List XML) :
    findDescL .timing [builtTiming cps] = some (builtTiming cps) := by
  simp [builtTiming, findDescL]

theorem rootParCount_canonical (ids : List Nat) (cps : List XML) :
    rootParCount (picSlide ids ++ [builtTiming cps]) = 1 := by
  rw [rootParCount, findDescL_picSlide_append .timing (by simp) ids,
      findDescL_timing_builtTiming]
  simp [builtTiming, findChildL, findallL, XML.children, XML.tag]

theorem clickParsOf_canonical (ids : List Nat) (cps : List XML) :
    clickParsOf (picSlide ids ++ [builtTiming cps]) = findallL .par cps := by
  rw [clickParsOf, seqChildListOf, findDescL_picSlide_append .timing (by simp) ids,
      findDescL_timing_builtTiming]
  simp [builtTiming, seqNode, findChildL, XML.children, XML.tag,
        prevCondNode, nextCondNode]

theorem clickParsOf_picSlide (ids : List Nat) :
    clickParsOf (picSlide ids) = [] := by
  have hnone : findDescL .timing (picSlide ids) = none := by
    simpa [findDescL] using findDescL_picSlide_append .timing (by simp) ids []
  simp [clickParsOf, seqChildListOf, hnone]

/-! ## Animation event trace of `BeamerConverter._add_animations`
(converter.py lines 262-281)

`_add_animations` walks `shapes_by_block` (tuples
`(block_idx, shapes, is_animated)`) keeping a running `click_index`, and
calls `add_appear_animation` / `add_disappear_animation`.  Its behaviour
at the event level is the ordered trace of those calls. -/

/-- Kind of an animation call. -/
inductive EvKind where
  | appear | disappear
deriving DecidableEq, Repr

/-- One `add_appear_animation` / `add_disappear_animation` call:
which shape, and the click index passed. -/
structure AnimEvent (α : Type) where
  kind : EvKind
  shape : α
  click : Nat
deriving Repr

/-- Whether this event is an appear call. -/
def AnimEvent.isAppear {α : Type} (e : AnimEvent α) : Bool :=
  match e.kind with
  | .appear => true
  | .disappear => false

/-- The inner loop of `_add_animations` (converter.py lines 277-281):
for each shape after the first, appear at the current click, hide the
previous shape at the same click, then advance the click counter.
Returns the events together with the final click counter. -/
def blockAnimEvents {α : Type} (prev : α) (c : Nat) :
    List α → List (AnimEvent α) × Nat
  | [] => ([], c)
  | s :: rest =>
    let r := blockAnimEvents s (c + 1) rest
    (⟨.appear, s, c⟩ :: ⟨.disappear, prev, c⟩ :: r.1, r.2)

/-- The outer loop of `_add_animations` (converter.py lines 267-281):
skip shape-less blocks, make the first shape appear on its own click,
then run the inner loop; the click counter threads through all blocks. -/
def addAnimationsFrom {α : Type} (c : Nat) :
    List (Nat × List α × Bool) → List (AnimEvent α) × Nat
  | [] => ([], c)
  | (_, [], _) :: rest => addAnimationsFrom c rest
  | (_, s0 :: srest, _) :: rest =>
    let r := blockAnimEvents s0 (c + 1) srest
    let r2 := addAnimationsFrom r.2 rest
    (⟨.appear, s0, c⟩ :: r.1 ++ r2.1, r2.2)

/-- `_add_animations(slide, shapes_by_block)` as its event trace,
starting from `click_index = 0`. -/
def addAnimations {α : Type} (blocks : List (Nat × List α × Bool)) :
    List (AnimEvent α) :=
  (addAnimationsFrom 0 blocks).1

/-- Total number of placed step shapes across the blocks. -/
def totalShapeCount {α : Type} (blocks : List (Nat × List α × Bool)) : Nat :=
  (blocks.map (fun b => b.2.1.length)).sum

/-! ## Block rendering (renderer.py and `_render_block`)

The typesetting oracle `tb : String → Option (Nat × Nat)` stands for
`render_latex_to_image`: given the LaTeX fragment, either a bitmap is
produced (its pixel width and height are returned) or the call fails —
the spec's `compileFragment(markup, resolution) -> Bitmap | Failure`
boundary.  A rendered step keeps its 1-based step index (the
`step_{i:03d}.png` file name), the fragment it typeset, and the bitmap's
pixel dimensions. -/

/-- Block kinds of parser.BlockType. -/
inductive BlockType where
  | text | mathAlign | displayMath | itemize | enumerate | code
deriving DecidableEq, Repr

/-- parser.ContentBlock (the fields the renderer reads). -/
structure ContentBlock where
  blockType : BlockType
  rawContent : String
  items : List String
deriving Repr

/-- One rendered reveal step. -/
structure Step where
  idx : Nat
  content : String
  pw : Nat
  ph : Nat
deriving Repr, DecidableEq

/-- One tuple `(block_idx, image_paths, is_animated, spacing)` returned
by `_render_block` (converter.py lines 175-218). -/
structure RenderedBlock where
  blockIdx : Nat
  steps : List Step
  isAnimated : Bool
  spacing : ℚ
deriving Repr, DecidableEq

/-- The LaTeX fragment built for one cumulative step of an
`align`-family block (renderer.py lines 267-271). -/
def alignFragment (env : String) (ls : List String) : String :=
  "\\begin\x7b" ++ env ++ "\x7d\n" ++ String.intercalate " \\\\\n" ls ++
    "\n\\end\x7b" ++ env ++ "\x7d"

/-- The fragment for one cumulative step of an itemize/enumerate block
(renderer.py lines 296-301). -/
def itemizeFragment (env : String) (ls : List String) : String :=
  "\\begin\x7b" ++ env ++ "\x7d\n" ++
    String.join (ls.map (fun it => "\\item " ++ it ++ "\n")) ++
    "\\end\x7b" ++ env ++ "\x7d"

/-- The fragment for one cumulative step of a text block
(renderer.py lines 342-344). -/
def textFragment (ls : List String) : String :=
  String.intercalate "\n\n" ls

/-- The shared cumulative-render loop of `render_align_cumulative`,
`render_itemize_cumulative` and `render_text_cumulative`:
`for i in range(1, len(items) + 1)` typeset the fragment of the first
`i` items and keep the step when the oracle succeeds.  `i` is the next
1-based step index and the second argument counts remaining
iterations. -/
def renderCumulFrom (frag : List String → String) (items : List String)
    (tb : String → Option (Nat × Nat)) : Nat → Nat → List Step
  | _, 0 => []
  | i, fuel + 1 =>
    match tb (frag (items.take i)) with
    | some wh =>
      ⟨i, frag (items.take i), wh.1, wh.2⟩ ::
        renderCumulFrom frag items tb (i + 1) fuel
    | none => renderCumulFrom frag items tb (i + 1) fuel

/-- Run the cumulative loop over all items. -/
def renderCumulSteps (frag : List String → String) (items : List String)
    (tb : String → Option (Nat × Nat)) : List Step :=
  renderCumulFrom frag items tb 1 items.length

/-- `render_align_cumulative` (renderer.py lines 252-278). -/
def renderAlignCumulative (lines : List String) (env : String)
    (tb : String → Option (Nat × Nat)) : List Step :=
  renderCumulSteps (alignFragment env) lines tb

/-- `render_itemize_cumulative` (renderer.py lines 281-308). -/
def renderItemizeCumulative (items : List String) (env : String)
    (tb : String → Option (Nat × Nat)) : List Step :=
  renderCumulSteps (itemizeFragment env) items tb

/-- `render_text_cumulative` (renderer.py lines 325-351). -/
def renderTextCumulative (paragraphs : List String)
    (tb : String → Option (Nat × Nat)) : List Step :=
  renderCumulSteps textFragment paragraphs tb

/-- `BeamerConverter._get_env_name` (converter.py lines 283-289): the
first regex match of `\begin{([^}]+)}`, scanning left to right; a match
needs at least one non-brace character and a closing brace. -/
def getEnvNameAux : List Char → Option (List Char)
  | [] => none
  | c :: rest =>
    if (c :: rest).take 7 = "\\begin\x7b".toList then
      let after := (c :: rest).drop 7
      let grp := after.takeWhile (fun ch => ch ≠ '\x7d')
      if grp ≠ [] ∧ after.drop grp.length ≠ [] then some grp
      else getEnvNameAux rest
    else getEnvNameAux rest

/-- See `getEnvNameAux`; falls back to `align*`. -/
def getEnvName (raw : String) : String :=
  match getEnvNameAux raw.toList with
  | some grp => String.mk grp
  | none => "align*"

/-- `BeamerConverter._render_block` (converter.py lines 175-218). -/
def renderBlock (block : ContentBlock) (blockIdx : Nat)
    (tb : String → Option (Nat × Nat)) : Option RenderedBlock :=
  match block.blockType with
  | .text =>
    if 1 < block.items.length then
      let ps := renderTextCumulative block.items tb
      if ps = [] then none else some ⟨blockIdx, ps, true, 0.15⟩
    else
      match block.items with
      | [] => none
      | it :: _ =>
        match tb it with
        | some wh => some ⟨blockIdx, [⟨1, it, wh.1, wh.2⟩], false, 0.15⟩
        | none => none
  | .mathAlign =>
    let ps := renderAlignCumulative block.items (getEnvName block.rawContent) tb
    if ps = [] then none else some ⟨blockIdx, ps, true, 0.2⟩
  | .displayMath =>
    match tb block.rawContent with
    | some wh => some ⟨blockIdx, [⟨1, block.rawContent, wh.1, wh.2⟩], true, 0.2⟩
    | none => none
  | .itemize =>
    let ps := renderItemizeCumulative block.items "itemize" tb
    if ps = [] then none else some ⟨blockIdx, ps, true, 0.2⟩
  | .enumerate =>
    let ps := renderItemizeCumulative block.items "enumerate" tb
    if ps = [] then none else some ⟨blockIdx, ps, true, 0.2⟩
  | .code => none

/-- Pass 1 of `BeamerConverter._process_frame` (converter.py lines
138-145): render each block with its position index and keep the
successful ones. -/
def renderFrameBlocksFrom (i : Nat) (tb : String → Option (Nat × Nat)) :
    List ContentBlock → List RenderedBlock
  | [] => []
  | b :: rest =>
    match renderBlock b i tb with
    | some rb => rb :: renderFrameBlocksFrom (i + 1) tb rest
    | none => renderFrameBlocksFrom (i + 1) tb rest

/-- The markup fragments a block submits to the typesetting oracle. -/
def blockFragments (b : ContentBlock) : List String :=
  match b.blockType with
  | .text =>
    if 1 < b.items.length then
      (List.range b.items.length).map (fun j => textFragment (b.items.take (j + 1)))
    else b.items.take 1
  | .mathAlign =>
    (List.range b.items.length).map
      (fun j => alignFragment (getEnvName b.rawContent) (b.items.take (j + 1)))
  | .displayMath => [b.rawContent]
  | .itemize =>
    (List.range b.items.length).map
      (fun j => itemizeFragment "itemize" (b.items.take (j + 1)))
  | .enumerate =>
    (List.range b.items.length).map
      (fun j => itemizeFragment "enumerate" (b.items.take (j + 1)))
  | .code => []

/-! ## Layout (`BeamerConverter._fit_content_width`, converter.py lines
220-260), over exact rationals. -/

/-- `slide_height - top_start - bottom_margin` for the two layouts
(with or without a Beamer PDF background). -/
def availableHeight (hasBg : Bool) : ℚ :=
  if hasBg then 7.5 - 0.88 - 0.6 else 7.5 - 1.2 - 0.3

/-- One block's contribution to `total_image_height`: the aspect ratio
of its last (tallest) image times the base content width; blocks with no
images, or a zero pixel width, contribute nothing. -/
def blockContribution (cw : ℚ) (rb : RenderedBlock) : ℚ :=
  match rb.steps.getLast? with
  | none => 0
  | some s => if 0 < s.pw then ((s.ph : ℚ) / (s.pw : ℚ)) * cw else 0

/-- `total_image_height`. -/
def totalImageHeight (cw : ℚ) (rbs : List RenderedBlock) : ℚ :=
  (rbs.map (blockContribution cw)).sum

/-- `total_spacing`: every block but the last contributes its spacing,
except that a block with no images is skipped (`continue`). -/
def totalSpacing : List RenderedBlock → ℚ
  | [] => 0
  | [_] => 0
  | rb :: rest => (if rb.steps = [] then 0 else rb.spacing) + totalSpacing rest

/-- `BeamerConverter._fit_content_width(rendered_blocks, has_beamer_bg)`
with the converter's `content_width` field as `cw`. -/
def fitContentWidth (rbs : List RenderedBlock) (hasBg : Bool) (cw : ℚ) : ℚ :=
  if rbs = [] then cw
  else
    let avail := availableHeight hasBg
    let tih := totalImageHeight cw rbs
    let tsp := totalSpacing rbs
    if avail < tih + tsp ∧ 0 < tih then
      if 0 < avail - tsp then cw * max ((avail - tsp) / tih) (1 / 2) else cw
    else cw

/-! ## Claim theorems: layout -/

/-- C9: for every layout configuration the code exposes (the
`has_beamer_bg` flag selecting the top offset and bottom margin, and the
converter's `content_width`), `_fit_content_width` on an empty rendered
block list returns the base content width unchanged. -/
theorem c9_fit_empty_returns_base (hasBg : Bool) (cw : ℚ) :
    fitContentWidth [] hasBg cw = cw := by
  simp [fitContentWidth]

/-- C10: for every non-empty rendered block list whose total required
height exceeds the available height, if total inter-block spacing alone
is at least the available height (so `available − spacing` is not
positive), `_fit_content_width` returns the base content width
unchanged — no scale factor is applied and the content overflows. -/
theorem c10_spacing_overflow_returns_base (rbs : List RenderedBlock)
    (hasBg : Bool) (cw : ℚ) (hne : rbs ≠ [])
    (hover : availableHeight hasBg <
      totalImageHeight cw rbs + totalSpacing rbs)
    (hsp : availableHeight hasBg ≤ totalSpacing rbs) :
    fitContentWidth rbs hasBg cw = cw := by
  simp only [fitContentWidth, if_neg hne]
  split_ifs with h1 h2
  · exact absurd h2 (by linarith)
  · rfl
  · rfl

/-- C7 (amended): `_fit_content_width` always stays within
`[0.5 * base, base]` (for a positive base); it returns the base width
unchanged whenever the total required height fits; and it returns
`base * max(scale, 0.5)` with `scale = (available − spacing) /
imageHeight < 1` only when additionally `available − spacing` and the
total image height are positive — in the remaining overflow cases
(C10's degenerate inputs) it returns the base width unchanged rather
than a clamped value. -/
theorem c7_fit_bounds (rbs : List RenderedBlock) (hasBg : Bool) (cw : ℚ)
    (hcw : 0 < cw) :
    (cw / 2 ≤ fitContentWidth rbs hasBg cw ∧ fitContentWidth rbs hasBg cw ≤ cw) ∧
    (totalImageHeight cw rbs + totalSpacing rbs ≤ availableHeight hasBg →
      fitContentWidth rbs hasBg cw = cw) ∧
    (availableHeight hasBg < totalImageHeight cw rbs + totalSpacing rbs →
      0 < totalImageHeight cw rbs →
      0 < availableHeight hasBg - totalSpacing rbs →
      fitContentWidth rbs hasBg cw =
          cw * max ((availableHeight hasBg - totalSpacing rbs) /
            totalImageHeight cw rbs) (1 / 2) ∧
        (availableHeight hasBg - totalSpacing rbs) /
            totalImageHeight cw rbs < 1) := by
  by_cases hne : rbs = []
  · subst hne
    refine ⟨⟨by simp [fitContentWidth]; linarith, by simp [fitContentWidth]⟩,
      fun _ => by simp [fitContentWidth], fun _ htih _ => ?_⟩
    exact absurd htih (by simp [totalImageHeight])
  · constructor
    · simp only [fitContentWidth, if_neg hne]
      split_ifs with h1 h2
      · obtain ⟨hlt, htih⟩ := h1
        have hscale : (availableHeight hasBg - totalSpacing rbs) /
            totalImageHeight cw rbs < 1 := by
          rw [div_lt_one htih]
          linarith
        have hmax1 : max ((availableHeight hasBg - totalSpacing rbs) /
            totalImageHeight cw rbs) (1 / 2) ≤ 1 :=
          max_le hscale.le (by norm_num)
        have hmax2 : (1 / 2 : ℚ) ≤ max ((availableHeight hasBg -
            totalSpacing rbs) / totalImageHeight cw rbs) (1 / 2) :=
          le_max_right _ _
        constructor
        · calc cw / 2 = cw * (1 / 2) := by ring
          _ ≤ cw * max ((availableHeight hasBg - totalSpacing rbs) /
              totalImageHeight cw rbs) (1 / 2) :=
            mul_le_mul_of_nonneg_left hmax2 hcw.le
        · calc cw * max ((availableHeight hasBg - totalSpacing rbs) /
              totalImageHeight cw rbs) (1 / 2) ≤ cw * 1 :=
            mul_le_mul_of_nonneg_left hmax1 hcw.le
          _ = cw := mul_one cw
      · exact ⟨by linarith, le_refl cw⟩
      · exact ⟨by linarith, le_refl cw⟩
    constructor
    · intro hfits
      simp only [fitContentWidth, if_neg hne]
      split_ifs with h1 h2
      · exact absurd h1.1 (by linarith)
      · rfl
      · rfl
    · intro hover htih htarget
      have heq : fitContentWidth rbs hasBg cw =
          cw * max ((availableHeight hasBg - totalSpacing rbs) /
            totalImageHeight cw rbs) (1 / 2) := by
        simp only [fitContentWidth, if_neg hne]
        rw [if_pos ⟨hover, htih⟩, if_pos htarget]
      refine ⟨heq, ?_⟩
      rw [div_lt_one htih]
      linarith

/-- Witness for `c10_spacing_overflow_returns_base` at a concrete
overflowing input whose spacing exceeds the available height. -/
theorem c10_spacing_overflow_returns_base_witness :
    fitContentWidth
        [⟨0, [⟨1, "", 50, 50⟩], false, 8⟩, ⟨1, [⟨1, "", 50, 50⟩], false, 8⟩]
        true 10 = 10 :=
  c10_spacing_overflow_returns_base
    [⟨0, [⟨1, "", 50, 50⟩], false, 8⟩, ⟨1, [⟨1, "", 50, 50⟩], false, 8⟩]
    true 10 (by simp)
    (by norm_num [availableHeight, totalImageHeight, totalSpacing,
      blockContribution])
    (by norm_num [availableHeight, totalSpacing])

/-- Witness for `c7_fit_bounds` at the empty block list. -/
theorem c7_fit_bounds_witness :
    ((10 : ℚ) / 2 ≤ fitContentWidth [] false 10 ∧
      fitContentWidth [] false 10 ≤ 10) ∧
    (totalImageHeight 10 [] + totalSpacing [] ≤ availableHeight false →
      fitContentWidth [] false 10 = 10) ∧
    (availableHeight false < totalImageHeight 10 [] + totalSpacing [] →
      0 < totalImageHeight 10 [] →
      0 < availableHeight false - totalSpacing [] →
      fitContentWidth [] false 10 =
          10 * max ((availableHeight false - totalSpacing []) /
            totalImageHeight 10 []) (1 / 2) ∧
        (availableHeight false - totalSpacing []) /
            totalImageHeight 10 [] < 1) :=
  c7_fit_bounds [] false 10 (by norm_num)

/-- C7 counterexample: two blocks with spacing 7 on a title-less slide
(available height 6): the content does not fit, yet the code returns the
base width 10 unchanged, while the claim's `base * clamp(scale, 0.5, 1)`
would be 5. -/
theorem c7_counterexample :
    availableHeight false <
      totalImageHeight 10
          [⟨0, [⟨1, "", 100, 100⟩], true, 7⟩, ⟨1, [⟨1, "", 100, 50⟩], true, 7⟩] +
        totalSpacing
          [⟨0, [⟨1, "", 100, 100⟩], true, 7⟩, ⟨1, [⟨1, "", 100, 50⟩], true, 7⟩] ∧
    fitContentWidth
        [⟨0, [⟨1, "", 100, 100⟩], true, 7⟩, ⟨1, [⟨1, "", 100, 50⟩], true, 7⟩]
        false 10 = 10 ∧
    (10 : ℚ) ≠ 10 * max (min ((availableHeight false -
        totalSpacing
          [⟨0, [⟨1, "", 100, 100⟩], true, 7⟩, ⟨1, [⟨1, "", 100, 50⟩], true, 7⟩]) /
        totalImageHeight 10
          [⟨0, [⟨1, "", 100, 100⟩], true, 7⟩, ⟨1, [⟨1, "", 100, 50⟩], true, 7⟩]) 1)
      (1 / 2) := by
  refine ⟨?_, ?_, ?_⟩ <;>
    norm_num [fitContentWidth, totalImageHeight, totalSpacing,
      blockContribution, availableHeight]

/-! ## Claim theorems: block rendering flags (C4) -/

/-- C4 counterexample: a DisplayMath block whose typesetting succeeds
produces exactly one step, but its `is_animated` flag is `true`, not
`false` as the claim states (converter.py line 204 hard-codes `True`;
the repository's own test asserts it). -/
theorem c4_counterexample :
    (renderBlock ⟨.displayMath, "E = mc^2", []⟩ 0
        (fun _ => some (100, 50))).map
      (fun rb => (rb.steps.length, rb.isAnimated)) = some (1, true) ∧
    (renderBlock ⟨.displayMath, "E = mc^2", []⟩ 0
        (fun _ => some (100, 50))).map
      (fun rb => (rb.steps.length, rb.isAnimated)) ≠ some (1, false) := by
  constructor
  · rfl
  · intro h
    simp [renderBlock] at h

/-- C4 (amended): every successfully rendered DisplayMath block has
exactly one step, and its `is_animated` flag is `true` (the flag does
not follow the spec's "more than one step" definition on this branch;
no downstream code reads it). -/
theorem c4_display_math_one_step (b : ContentBlock) (idx : Nat)
    (tb : String → Option (Nat × Nat)) (rb : RenderedBlock)
    (hbt : b.blockType = .displayMath)
    (h : renderBlock b idx tb = some rb) :
    rb.steps.length = 1 ∧ rb.isAnimated = true := by
  rw [renderBlock, hbt] at h
  cases htb : tb b.rawContent with
  | none => rw [htb] at h; exact absurd h (by simp)
  | some wh =>
    rw [htb] at h
    have : (⟨idx, [⟨1, b.rawContent, wh.1, wh.2⟩], true, 0.2⟩ :
        RenderedBlock) = rb := by
      exact Option.some.inj h
    rw [← this]
    exact ⟨rfl, rfl⟩

/-- Witness for `c4_display_math_one_step` at a concrete block. -/
theorem c4_display_math_one_step_witness :
    (⟨0, [⟨1, "E = mc^2", 100, 50⟩], true, 0.2⟩ : RenderedBlock).steps.length = 1 ∧
    (⟨0, [⟨1, "E = mc^2", 100, 50⟩], true, 0.2⟩ : RenderedBlock).isAnimated = true :=
  c4_display_math_one_step ⟨.displayMath, "E = mc^2", []⟩ 0
    (fun _ => some (100, 50)) _ rfl rfl

/-! ## Claim theorems: click counter (C1) -/

theorem blockAnimEvents_spec {α : Type} :
    ∀ (l : List α) (prev : α) (c : Nat),
      (((blockAnimEvents prev c l).1.filter AnimEvent.isAppear).map
          AnimEvent.click = List.range' c l.length) ∧
        (blockAnimEvents prev c l).2 = c + l.length := by
  intro l
  induction l with
  | nil => intro prev c; simp [blockAnimEvents]
  | cons s rest ih =>
    intro prev c
    obtain ⟨h1, h2⟩ := ih s (c + 1)
    refine ⟨?_, by simp [blockAnimEvents, h2]; omega⟩
    simp [blockAnimEvents, AnimEvent.isAppear, h1, List.range'_succ]

theorem addAnimationsFrom_spec {α : Type} :
    ∀ (blocks : List (Nat × List α × Bool)) (c : Nat),
      (((addAnimationsFrom c blocks).1.filter AnimEvent.isAppear).map
          AnimEvent.click = List.range' c (totalShapeCount blocks)) ∧
        (addAnimationsFrom c blocks).2 = c + totalShapeCount blocks := by
  intro blocks
  induction blocks with
  | nil => intro c; simp [addAnimationsFrom, totalShapeCount]
  | cons b rest ih =>
    intro c
    obtain ⟨bi, shapes, anim⟩ := b
    cases shapes with
    | nil => simpa [addAnimationsFrom, totalShapeCount] using ih c
    | cons s0 srest =>
      obtain ⟨h1, h2⟩ := blockAnimEvents_spec srest s0 (c + 1)
      obtain ⟨h3, h4⟩ := ih ((blockAnimEvents s0 (c + 1) srest).2)
      rw [h2] at h3 h4
      have hgoal : c :: (List.range' (c + 1) srest.length ++
          List.range' (c + 1 + srest.length) (totalShapeCount rest)) =
          List.range' c (srest.length + 1 + totalShapeCount rest) := by
        rw [List.range'_append_1 (c + 1) srest.length (totalShapeCount rest)]
        have hsucc := List.range'_succ c
          (totalShapeCount rest + srest.length) 1
        have harith : srest.length + 1 + totalShapeCount rest =
            totalShapeCount rest + srest.length + 1 := by omega
        rw [harith, hsucc]
      constructor
      · simp only [addAnimationsFrom, List.filter_append, List.filter_cons,
          List.map_append, AnimEvent.isAppear, if_true, List.map_cons, h2, h3]
        rw [h1]
        simpa [totalShapeCount] using hgoal
      · simp only [addAnimationsFrom, h2, h4]
        simp only [totalShapeCount, List.map_cons, List.sum_cons,
          List.length_cons]
        omega

/-- C1: with blocks of step counts [1, 2, 1], `_add_animations` emits
exactly 4 appear calls and exactly 1 disappear call (hiding the first
shape of the 2-step block), the appear click indices being 0, 1, 2, 3 in
that order; and in general the click counter threads through all blocks
of the slide, assigning the appear calls the consecutive click indices
`c, c+1, ...`, one per placed step shape, each used exactly once. -/
theorem c1_click_counter (i1 i2 i3 a x y z : Nat) (f1 f2 f3 : Bool) :
    ((addAnimations [(i1, [a], f1), (i2, [x, y], f2), (i3, [z], f3)]).filter
        AnimEvent.isAppear).length = 4 ∧
    (addAnimations [(i1, [a], f1), (i2, [x, y], f2), (i3, [z], f3)]).filter
        (fun e => !e.isAppear) = [⟨.disappear, x, 2⟩] ∧
    ((addAnimations [(i1, [a], f1), (i2, [x, y], f2), (i3, [z], f3)]).filter
        AnimEvent.isAppear).map AnimEvent.click = [0, 1, 2, 3] ∧
    ∀ (c : Nat) (blocks : List (Nat × List Nat × Bool)),
      (((addAnimationsFrom c blocks).1.filter AnimEvent.isAppear).map
          AnimEvent.click = List.range' c (totalShapeCount blocks)) ∧
        (addAnimationsFrom c blocks).2 = c + totalShapeCount blocks := by
  refine ⟨rfl, rfl, rfl, fun c blocks => addAnimationsFrom_spec blocks c⟩

/-! ## Claim theorems: disappear without a click node (C2) -/

/-- C2 counterexample: on a timing tree holding a time-node list and a
root parallel node but nothing beneath it (so no click node exists at
any index, and no sequence exists at all), `add_disappear_animation`
does not leave the tree unchanged: it raises an `AttributeError` on the
unchecked `main_cTn.find` navigation (modelled as `none`). -/
theorem c2_counterexample :
    clickParsOf [XML.elem .timing [] [XML.elem .tnLst [] [XML.elem .par [] []]]]
        = [] ∧
    addDisappearAnimation
        [XML.elem .timing [] [XML.elem .tnLst [] [XML.elem .par [] []]]] 1 0
        = none ∧
    addDisappearAnimation
        [XML.elem .timing [] [XML.elem .tnLst [] [XML.elem .par [] []]]] 1 0
        ≠ some [XML.elem .timing [] [XML.elem .tnLst [] [XML.elem .par [] []]]] := by
  refine ⟨?_, ?_, ?_⟩
  · simp [clickParsOf, seqChildListOf, findDescL, findChildL, XML.children,
      XML.tag]
  · simp [addDisappearAnimation, updDescL, updExisting, updFirstL, findChildL,
      withChildren, XML.children, XML.tag]
  · intro h
    rw [show addDisappearAnimation
        [XML.elem .timing [] [XML.elem .tnLst [] [XML.elem .par [] []]]] 1 0
        = none from by
      simp [addDisappearAnimation, updDescL, updExisting, updFirstL,
        findChildL, withChildren, XML.children, XML.tag]] at h
    exact Option.noConfusion h

/-- C2 (amended): a disappear call for a click index with no click node
is a pure no-op whenever (a) the slide has no timing element at all, or
(b) the timing tree is one the animation pass actually builds (where the
whole path down to the sequence's child list exists).  On trees
truncated strictly below the root parallel node the source instead
raises (see the counterexample). -/
theorem c2_disappear_noop (sid ci : Nat) :
    (∀ slide : List XML, findDescL .timing slide = none →
      addDisappearAnimation slide sid ci = some slide) ∧
    (∀ (ids : List Nat) (calls : List TimingCall) (st : List XML),
      runCalls (picSlide ids) calls = some st →
      (clickParsOf st).length ≤ ci →
      addDisappearAnimation st sid ci = some st) := by
  constructor
  · intro slide h
    exact disappear_no_timing slide sid ci h
  · intro ids calls st hrun hci
    have hgood := runCalls_good calls (picSlide ids) st (Or.inl rfl) hrun
    rcases hgood with rfl | ⟨cps, rfl, hcps⟩
    · refine disappear_no_timing _ sid ci ?_
      simpa [findDescL] using findDescL_picSlide_append .timing (by simp) ids []
    · have hclick : clickParsOf (picSlide ids ++ [builtTiming cps]) = cps := by
        rw [clickParsOf_canonical, findallL_of_clickShapes hcps]
      rw [hclick] at hci
      exact disappear_noop ids cps sid ci hcps hci

/-- Witness for `c2_disappear_noop`: a slide with a single picture and
no timing element, and a built slide with one click node queried at
click index 1. -/
theorem c2_disappear_noop_witness :
    addDisappearAnimation [picShape 4] 9 2 = some [picShape 4] ∧
    addDisappearAnimation (picSlide [4] ++ [builtTiming [clickParGen 1 0 0 []]])
        9 1 = some (picSlide [4] ++ [builtTiming [clickParGen 1 0 0 []]]) := by
  constructor
  · exact (c2_disappear_noop 9 2).1 [picShape 4]
      (by simp [findDescL, picShape, XML.tag])
  · refine (c2_disappear_noop 9 1).2 [4] [.appear 1 0 0] _ ?_ ?_
    · simp [runCalls, applyCall, appear_fresh]
    · rw [clickParsOf_canonical]
      simp [findallL, clickParGen, XML.tag]

/-! ## Claim theorems: appear appends a click node per call (C3) -/

/-- C3 counterexample: two `add_appear_animation` calls with the same
click index 0 on a fresh slide leave TWO click nodes in the sequence —
the second call does not reuse the existing node, refuting "a new click
node is appended only when the clickIndex has no existing click node". -/
theorem c3_counterexample :
    ((addAppearAnimation [] 1 0 0).bind
        (fun s => addAppearAnimation s 2 0 0)).map
      (fun s => (clickParsOf s).length) = some 2 ∧
    (addAppearAnimation [] 1 0 0).map (fun s => (clickParsOf s).length)
      = some 1 := by
  have h1 : addAppearAnimation [] 1 0 0 =
      some [builtTiming [clickParGen 1 0 0 []]] := by
    simpa [picSlide] using appear_fresh [] 1 0 0
  have h2 : addAppearAnimation [builtTiming [clickParGen 1 0 0 []]] 2 0 0 =
      some [builtTiming [clickParGen 1 0 0 [], clickParGen 2 0 0 []]] := by
    simpa [picSlide] using appear_step [] [clickParGen 1 0 0 []] 2 0 0
  have hc1 : clickParsOf [builtTiming [clickParGen 1 0 0 []]] =
      [clickParGen 1 0 0 []] := by
    have := clickParsOf_canonical [] [clickParGen 1 0 0 []]
    simpa [picSlide, findallL, clickParGen, XML.tag] using this
  have hc2 : clickParsOf [builtTiming [clickParGen 1 0 0 [],
      clickParGen 2 0 0 []]] =
      [clickParGen 1 0 0 [], clickParGen 2 0 0 []] := by
    have := clickParsOf_canonical [] [clickParGen 1 0 0 [], clickParGen 2 0 0 []]
    simpa [picSlide, findallL, clickParGen, XML.tag] using this
  rw [h1]
  constructor
  · simp [h2, hc2]
  · simp [hc1]

/-- C3 (amended): `add_appear_animation` appends a new click node
unconditionally, one per call, whatever the click index — on a slide
with an existing timing tree the sequence's click-node list grows from
`cps` to `cps ++ [new]`, and on a fresh slide the tree is created with
the one new click node.  The click-node count therefore always
increases by exactly one; reuse of an existing click node happens only
in `add_disappear_animation`, which selects it positionally. -/
theorem c3_appear_always_appends (ids : List Nat) (cps : List XML)
    (sid ci d : Nat) (hpar : ∀ cp ∈ cps, cp.tag = .par) :
    addAppearAnimation (picSlide ids ++ [builtTiming cps]) sid ci d =
      some (picSlide ids ++ [builtTiming (cps ++ [clickParGen sid ci d []])]) ∧
    addAppearAnimation (picSlide ids) sid ci d =
      some (picSlide ids ++ [builtTiming [clickParGen sid ci d []]]) ∧
    (clickParsOf (picSlide ids ++
        [builtTiming (cps ++ [clickParGen sid ci d []])])).length =
      (clickParsOf (picSlide ids ++ [builtTiming cps])).length + 1 := by
  refine ⟨appear_step ids cps sid ci d, appear_fresh ids sid ci d, ?_⟩
  have hall : findallL .par cps = cps :=
    List.filter_eq_self.mpr (fun cp hcp => by simp [hpar cp hcp])
  rw [clickParsOf_canonical, clickParsOf_canonical]
  simp only [findallL, List.filter_append] at *
  rw [hall]
  simp [clickParGen, XML.tag]

/-- Witness for `c3_appear_always_appends` on a concrete slide. -/
theorem c3_appear_always_appends_witness :
    addAppearAnimation (picSlide [7] ++ [builtTiming []]) 3 0 0 =
      some (picSlide [7] ++ [builtTiming ([] ++ [clickParGen 3 0 0 []])]) ∧
    addAppearAnimation (picSlide [7]) 3 0 0 =
      some (picSlide [7] ++ [builtTiming [clickParGen 3 0 0 []]]) ∧
    (clickParsOf (picSlide [7] ++
        [builtTiming ([] ++ [clickParGen 3 0 0 []])])).length =
      (clickParsOf (picSlide [7] ++ [builtTiming []])).length + 1 :=
  c3_appear_always_appends [7] [] 3 0 0 (by simp)

/-! ## Claim theorems: one timing tree per slide (C8) -/

/-- C8: after any sequence of appear/disappear calls on a slide that
starts with picture shapes only, the slide holds at most one timing
element, at most one time-node list, at most one root parallel node and
at most one sequence node — the root and sequence are created once and
reused. -/
theorem c8_single_timing_tree (ids : List Nat) (calls : List TimingCall)
    (st : List XML) (hrun : runCalls (picSlide ids) calls = some st) :
    countDescL .timing st ≤ 1 ∧ countDescL .tnLst st ≤ 1 ∧
      countDescL .seq st ≤ 1 ∧ rootParCount st ≤ 1 := by
  have hgood := runCalls_good calls (picSlide ids) st (Or.inl rfl) hrun
  rcases hgood with rfl | ⟨cps, rfl, hcps⟩
  · have h0 : ∀ t : Tag, t ≠ .pic → countDescL t (picSlide ids) = 0 :=
      fun t ht => countDescL_picSlide t ht ids
    have hroot : rootParCount (picSlide ids) = 0 := by
      rw [rootParCount]
      rw [show findDescL .timing (picSlide ids) = none from by
        simpa [findDescL] using findDescL_picSlide_append .timing (by simp) ids []]
    refine ⟨?_, ?_, ?_, ?_⟩ <;>
      simp [h0 .timing (by simp), h0 .tnLst (by simp), h0 .seq (by simp), hroot]
  · obtain ⟨hcl1, hcl2, hcl3⟩ := countDescL_clickShapes hcps
    have happ : ∀ t : Tag, countDescL t (picSlide ids ++ [builtTiming cps]) =
        countDescL t (picSlide ids) + countDescL t [builtTiming cps] :=
      fun t => countDescL_append t (picSlide ids) [builtTiming cps]
    refine ⟨?_, ?_, ?_, ?_⟩
    · rw [happ .timing, countDescL_picSlide .timing (by simp) ids,
        countDescL_timing_builtTiming, hcl1]
    · rw [happ .tnLst, countDescL_picSlide .tnLst (by simp) ids,
        countDescL_tnLst_builtTiming, hcl2]
    · rw [happ .seq, countDescL_picSlide .seq (by simp) ids,
        countDescL_seq_builtTiming, hcl3]
    · rw [rootParCount_canonical]

/-- Witness for `c8_single_timing_tree`: a concrete two-appear,
one-disappear run. -/
theorem c8_single_timing_tree_witness :
    countDescL .timing (picSlide [5] ++
        [builtTiming [clickParGen 1 0 0 [], clickParGen 2 1 0 []]]) ≤ 1 ∧
    countDescL .tnLst (picSlide [5] ++
        [builtTiming [clickParGen 1 0 0 [], clickParGen 2 1 0 []]]) ≤ 1 ∧
    countDescL .seq (picSlide [5] ++
        [builtTiming [clickParGen 1 0 0 [], clickParGen 2 1 0 []]]) ≤ 1 ∧
    rootParCount (picSlide [5] ++
        [builtTiming [clickParGen 1 0 0 [], clickParGen 2 1 0 []]]) ≤ 1 :=
  c8_single_timing_tree [5] [.appear 1 0 0, .appear 2 1 0] _ (by
    have s1 := appear_fresh [5] 1 0 0
    have s2 := appear_step [5] [clickParGen 1 0 0 []] 2 1 0
    simp only [List.cons_append, List.nil_append] at s2
    rw [runCalls]
    rw [show applyCall (picSlide [5]) (.appear 1 0 0) =
      some (picSlide [5] ++ [builtTiming [clickParGen 1 0 0 []]]) from s1]
    show runCalls (picSlide [5] ++ [builtTiming [clickParGen 1 0 0 []]])
      [TimingCall.appear 2 1 0] = _
    rw [runCalls]
    rw [show applyCall (picSlide [5] ++ [builtTiming [clickParGen 1 0 0 []]])
        (.appear 2 1 0) =
      some (picSlide [5] ++
        [builtTiming [clickParGen 1 0 0 [], clickParGen 2 1 0 []]]) from s2]
    rfl)

/-! ## Claim theorems: cumulative rendering (C5) -/

theorem renderCumulFrom_total (frag : List String → String)
    (items : List String) (tb : String → Option (Nat × Nat))
    (htb : ∀ s, (tb s).isSome) :
    ∀ (fuel i : Nat),
      (renderCumulFrom frag items tb i fuel).length = fuel ∧
      ∀ j, j < fuel → ∃ w h,
        (renderCumulFrom frag items tb i fuel)[j]? =
          some ⟨i + j, frag (items.take (i + j)), w, h⟩ := by
  intro fuel
  induction fuel with
  | zero => intro i; simp [renderCumulFrom]
  | succ fuel ih =>
    intro i
    obtain ⟨hl, hj⟩ := ih (i + 1)
    obtain ⟨⟨w, h⟩, hwh⟩ :=
      Option.isSome_iff_exists.mp (htb (frag (items.take i)))
    constructor
    · simp only [renderCumulFrom, hwh]
      simp [hl]
    · intro j hjlt
      simp only [renderCumulFrom, hwh]
      match j with
      | 0 => exact ⟨w, h, by simp⟩
      | j + 1 =>
        obtain ⟨w2, h2, hh⟩ := hj j (by omega)
        refine ⟨w2, h2, ?_⟩
        have harith : i + (j + 1) = i + 1 + j := by omega
        rw [harith]
        simpa using hh

/-- The step list a cumulative render function produces when the
typesetting oracle always succeeds: one step per item, step `j + 1`
holding the fragment of the first `j + 1` items. -/
theorem renderCumulSteps_total (frag : List String → String)
    (items : List String) (tb : String → Option (Nat × Nat))
    (htb : ∀ s, (tb s).isSome) (hk : 1 ≤ items.length) :
    renderCumulSteps frag items tb ≠ [] ∧
    (renderCumulSteps frag items tb).length = items.length ∧
    ∀ j, j < items.length → ∃ w h,
      (renderCumulSteps frag items tb)[j]? =
        some ⟨j + 1, frag (items.take (j + 1)), w, h⟩ := by
  obtain ⟨hl, hj⟩ := renderCumulFrom_total frag items tb htb items.length 1
  refine ⟨?_, hl, ?_⟩
  · refine List.ne_nil_of_length_pos ?_
    rw [renderCumulSteps, hl]
    omega
  · intro j hjlt
    obtain ⟨w, h, hh⟩ := hj j hjlt
    refine ⟨w, h, ?_⟩
    rw [renderCumulSteps]
    have harith : 1 + j = j + 1 := by omega
    rw [harith] at hh
    exact hh

/-- The standalone fragment `_render_block` typesets for the cumulative
prefix of the first `i` reveal items of an animatable block. -/
def cumulativeFragment (b : ContentBlock) (i : Nat) : String :=
  match b.blockType with
  | .text => textFragment (b.items.take i)
  | .mathAlign => alignFragment (getEnvName b.rawContent) (b.items.take i)
  | .itemize => itemizeFragment "itemize" (b.items.take i)
  | .enumerate => itemizeFragment "enumerate" (b.items.take i)
  | _ => ""

/-- C5: for every Text, MathAlignment, Itemize or Enumerate block with
`k ≥ 1` reveal items, when the typesetting oracle succeeds on every
call, `_render_block` produces exactly `k` steps; step `i` (1-based) is
the re-typeset standalone fragment of the cumulative prefix of the
first `i` items, so the item sequence shown by step `i` is a prefix of
the one shown by step `i + 1`. -/
theorem c5_render_k_cumulative_steps (b : ContentBlock) (idx : Nat)
    (tb : String → Option (Nat × Nat)) (htb : ∀ s, (tb s).isSome)
    (hanim : b.blockType = .text ∨ b.blockType = .mathAlign ∨
      b.blockType = .itemize ∨ b.blockType = .enumerate)
    (hk : 1 ≤ b.items.length) :
    ∃ rb, renderBlock b idx tb = some rb ∧
      rb.steps.length = b.items.length ∧
      (∀ j, j < b.items.length → ∃ w h,
        rb.steps[j]? = some ⟨j + 1, cumulativeFragment b (j + 1), w, h⟩) ∧
      ∀ j, b.items.take (j + 1) <+: b.items.take (j + 2) := by
  have hpref : ∀ j, b.items.take (j + 1) <+: b.items.take (j + 2) := by
    intro j
    have h1 : b.items.take (j + 1) = (b.items.take (j + 2)).take (j + 1) := by
      rw [List.take_take]
      congr 1
      omega
    rw [h1]
    exact List.take_prefix _ _
  rcases hanim with hbt | hbt | hbt | hbt
  · by_cases hlen : 1 < b.items.length
    · obtain ⟨hne, hl, hj⟩ :=
        renderCumulSteps_total textFragment b.items tb htb hk
      refine ⟨⟨idx, renderCumulSteps textFragment b.items tb, true, 0.15⟩,
        ?_, hl, ?_, hpref⟩
      · rw [renderBlock, hbt]
        simp only [renderTextCumulative, if_pos hlen, if_neg hne]
      · intro j hjlt
        obtain ⟨w, h, hh⟩ := hj j hjlt
        exact ⟨w, h, by rw [hh]; simp [cumulativeFragment, hbt]⟩
    · have hone : b.items.length = 1 := by omega
      obtain ⟨it, hit⟩ := List.length_eq_one.mp hone
      obtain ⟨⟨w, h⟩, hwh⟩ := Option.isSome_iff_exists.mp (htb it)
      refine ⟨⟨idx, [⟨1, it, w, h⟩], false, 0.15⟩, ?_, by simp [hone], ?_, hpref⟩
      · rw [renderBlock, hbt]
        simp only [if_neg hlen, hit, hwh]
        norm_num
      · intro j hjlt
        have hj0 : j = 0 := by omega
        subst hj0
        refine ⟨w, h, ?_⟩
        have hcf : cumulativeFragment b 1 = it := by
          rw [cumulativeFragment, hbt, hit]
          rfl
        simp [hcf]
  · obtain ⟨hne, hl, hj⟩ := renderCumulSteps_total
      (alignFragment (getEnvName b.rawContent)) b.items tb htb hk
    refine ⟨⟨idx, renderCumulSteps (alignFragment (getEnvName b.rawContent))
        b.items tb, true, 0.2⟩, ?_, hl, ?_, hpref⟩
    · rw [renderBlock, hbt]
      simp only [renderAlignCumulative, if_neg hne]
    · intro j hjlt
      obtain ⟨w, h, hh⟩ := hj j hjlt
      exact ⟨w, h, by rw [hh]; simp [cumulativeFragment, hbt]⟩
  · obtain ⟨hne, hl, hj⟩ := renderCumulSteps_total
      (itemizeFragment "itemize") b.items tb htb hk
    refine ⟨⟨idx, renderCumulSteps (itemizeFragment "itemize") b.items tb,
      true, 0.2⟩, ?_, hl, ?_, hpref⟩
    · rw [renderBlock, hbt]
      simp only [renderItemizeCumulative, if_neg hne]
    · intro j hjlt
      obtain ⟨w, h, hh⟩ := hj j hjlt
      exact ⟨w, h, by rw [hh]; simp [cumulativeFragment, hbt]⟩
  · obtain ⟨hne, hl, hj⟩ := renderCumulSteps_total
      (itemizeFragment "enumerate") b.items tb htb hk
    refine ⟨⟨idx, renderCumulSteps (itemizeFragment "enumerate") b.items tb,
      true, 0.2⟩, ?_, hl, ?_, hpref⟩
    · rw [renderBlock, hbt]
      simp only [renderItemizeCumulative, if_neg hne]
    · intro j hjlt
      obtain ⟨w, h, hh⟩ := hj j hjlt
      exact ⟨w, h, by rw [hh]; simp [cumulativeFragment, hbt]⟩

/-- Witness for `c5_render_k_cumulative_steps`: a two-line align block
with an always-succeeding oracle. -/
theorem c5_render_k_cumulative_steps_witness :
    ∃ rb, renderBlock ⟨.mathAlign, "\\begin\x7balign*\x7dx\\end\x7balign*\x7d",
        ["x = 1", "y = 2"]⟩ 0 (fun _ => some (80, 20)) = some rb ∧
      rb.steps.length =
        (⟨.mathAlign, "\\begin\x7balign*\x7dx\\end\x7balign*\x7d",
          ["x = 1", "y = 2"]⟩ : ContentBlock).items.length ∧
      (∀ j, j < (⟨.mathAlign, "\\begin\x7balign*\x7dx\\end\x7balign*\x7d",
          ["x = 1", "y = 2"]⟩ : ContentBlock).items.length → ∃ w h,
        rb.steps[j]? = some ⟨j + 1, cumulativeFragment
          ⟨.mathAlign, "\\begin\x7balign*\x7dx\\end\x7balign*\x7d",
            ["x = 1", "y = 2"]⟩ (j + 1), w, h⟩) ∧
      ∀ j, (⟨.mathAlign, "\\begin\x7balign*\x7dx\\end\x7balign*\x7d",
          ["x = 1", "y = 2"]⟩ : ContentBlock).items.take (j + 1) <+:
        (⟨.mathAlign, "\\begin\x7balign*\x7dx\\end\x7balign*\x7d",
          ["x = 1", "y = 2"]⟩ : ContentBlock).items.take (j + 2) :=
  c5_render_k_cumulative_steps
    ⟨.mathAlign, "\\begin\x7balign*\x7dx\\end\x7balign*\x7d",
      ["x = 1", "y = 2"]⟩ 0 (fun _ => some (80, 20))
    (fun _ => rfl) (Or.inr (Or.inl rfl)) (by simp)

/-! ## Claim theorems: failure policy (C6) -/

theorem renderCumulFrom_map_idx (frag : List String → String)
    (items : List String) (tb : String → Option (Nat × Nat)) :
    ∀ (fuel i : Nat),
      (renderCumulFrom frag items tb i fuel).map Step.idx =
        (List.range' i fuel).filter
          (fun n => (tb (frag (items.take n))).isSome) := by
  intro fuel
  induction fuel with
  | zero => intro i; simp [renderCumulFrom]
  | succ fuel ih =>
    intro i
    rw [List.range'_succ]
    cases hwh : tb (frag (items.take i)) with
    | some wh =>
      simp only [renderCumulFrom, hwh]
      simp [List.filter_cons, hwh, ih]
    | none =>
      simp only [renderCumulFrom, hwh]
      simp [List.filter_cons, hwh, ih]

theorem renderCumulFrom_all_fail (frag : List String → String)
    (items : List String) (tb : String → Option (Nat × Nat)) :
    ∀ (fuel i : Nat),
      (∀ m, i ≤ m → m < i + fuel → tb (frag (items.take m)) = none) →
      renderCumulFrom frag items tb i fuel = [] := by
  intro fuel
  induction fuel with
  | zero => intro i _; simp [renderCumulFrom]
  | succ fuel ih =>
    intro i h
    have h0 : tb (frag (items.take i)) = none := h i (le_refl i) (by omega)
    simp only [renderCumulFrom, h0]
    exact ih (i + 1) (fun m hm1 hm2 => h m (by omega) (by omega))

theorem renderBlock_none_of_fragments_fail (b : ContentBlock) (idx : Nat)
    (tb : String → Option (Nat × Nat))
    (h : ∀ f ∈ blockFragments b, tb f = none) :
    renderBlock b idx tb = none := by
  have hcum : ∀ frag : List String → String,
      (∀ j, j < b.items.length → tb (frag (b.items.take (j + 1))) = none) →
      renderCumulSteps frag b.items tb = [] := by
    intro frag hf
    refine renderCumulFrom_all_fail frag b.items tb b.items.length 1 ?_
    intro m hm1 hm2
    have := hf (m - 1) (by omega)
    rwa [show m - 1 + 1 = m from by omega] at this
  cases hbt : b.blockType with
  | text =>
    by_cases hlen : 1 < b.items.length
    · have hps : renderTextCumulative b.items tb = [] := by
        refine hcum textFragment ?_
        intro j hj
        refine h _ ?_
        simp only [blockFragments, hbt, if_pos hlen]
        exact List.mem_map.mpr ⟨j, List.mem_range.mpr hj, rfl⟩
      simp [renderBlock, hbt, hlen, hps]
    · cases hitems : b.items with
      | nil => simp [renderBlock, hbt, hitems]
      | cons it rest =>
        have hlen2 : rest.length = 0 := by
          rw [hitems] at hlen
          simp only [List.length_cons] at hlen
          omega
        have hrest : rest = [] := List.eq_nil_of_length_eq_zero hlen2
        subst hrest
        have hit : tb it = none := by
          refine h it ?_
          simp [blockFragments, hbt, hitems]
        simp [renderBlock, hbt, hitems, hit]
  | mathAlign =>
    have hps : renderAlignCumulative b.items (getEnvName b.rawContent) tb
        = [] := by
      refine hcum (alignFragment (getEnvName b.rawContent)) ?_
      intro j hj
      refine h _ ?_
      simp only [blockFragments, hbt]
      exact List.mem_map.mpr ⟨j, List.mem_range.mpr hj, rfl⟩
    simp [renderBlock, hbt, hps]
  | displayMath =>
    have hraw : tb b.rawContent = none := h b.rawContent (by
      simp [blockFragments, hbt])
    simp [renderBlock, hbt, hraw]
  | itemize =>
    have hps : renderItemizeCumulative b.items "itemize" tb = [] := by
      refine hcum (itemizeFragment "itemize") ?_
      intro j hj
      refine h _ ?_
      simp only [blockFragments, hbt]
      exact List.mem_map.mpr ⟨j, List.mem_range.mpr hj, rfl⟩
    simp [renderBlock, hbt, hps]
  | enumerate =>
    have hps : renderItemizeCumulative b.items "enumerate" tb = [] := by
      refine hcum (itemizeFragment "enumerate") ?_
      intro j hj
      refine h _ ?_
      simp only [blockFragments, hbt]
      exact List.mem_map.mpr ⟨j, List.mem_range.mpr hj, rfl⟩
    simp [renderBlock, hbt, hps]
  | code => simp [renderBlock, hbt]

/-- The part of a rendered block the layout pass and the animation pass
read: everything except `block_idx` (which neither
`_fit_content_width` nor `_add_animations` uses). -/
def eraseRB (rb : RenderedBlock) : List Step × Bool × ℚ :=
  (rb.steps, rb.isAnimated, rb.spacing)

theorem renderBlock_erase (b : ContentBlock)
    (tb : String → Option (Nat × Nat)) (i j : Nat) :
    (renderBlock b i tb).map eraseRB = (renderBlock b j tb).map eraseRB := by
  cases hbt : b.blockType with
  | text =>
    rw [renderBlock, renderBlock, hbt]
    by_cases hlen : 1 < b.items.length
    · rw [if_pos hlen, if_pos hlen]
      by_cases hps : renderTextCumulative b.items tb = [] <;>
        simp [renderTextCumulative] at hps ⊢ <;> simp [hps, eraseRB]
    · rw [if_neg hlen, if_neg hlen]
      cases b.items with
      | nil => rfl
      | cons it rest => cases htb : tb it <;> simp [htb, eraseRB]
  | mathAlign =>
    rw [renderBlock, renderBlock, hbt]
    by_cases hps : renderAlignCumulative b.items (getEnvName b.rawContent) tb
        = [] <;>
      simp [renderAlignCumulative] at hps ⊢ <;> simp [hps, eraseRB]
  | displayMath =>
    rw [renderBlock, renderBlock, hbt]
    cases htb : tb b.rawContent <;> simp [htb, eraseRB]
  | itemize =>
    rw [renderBlock, renderBlock, hbt]
    by_cases hps : renderItemizeCumulative b.items "itemize" tb = [] <;>
      simp [renderItemizeCumulative] at hps ⊢ <;> simp [hps, eraseRB]
  | enumerate =>
    rw [renderBlock, renderBlock, hbt]
    by_cases hps : renderItemizeCumulative b.items "enumerate" tb = [] <;>
      simp [renderItemizeCumulative] at hps ⊢ <;> simp [hps, eraseRB]
  | code => rw [renderBlock, renderBlock, hbt]

theorem renderFrame_erase (tb : String → Option (Nat × Nat)) :
    ∀ (bs : List ContentBlock) (i j : Nat),
      (renderFrameBlocksFrom i tb bs).map eraseRB =
        (renderFrameBlocksFrom j tb bs).map eraseRB := by
  intro bs
  induction bs with
  | nil => intro i j; rfl
  | cons b rest ih =>
    intro i j
    have he := renderBlock_erase b tb i j
    cases h1 : renderBlock b i tb with
    | none =>
      cases h2 : renderBlock b j tb with
      | none =>
        simp only [renderFrameBlocksFrom, h1, h2]
        exact ih (i + 1) (j + 1)
      | some rb2 => rw [h1, h2] at he; simp at he
    | some rb1 =>
      cases h2 : renderBlock b j tb with
      | none => rw [h1, h2] at he; simp at he
      | some rb2 =>
        rw [h1, h2] at he
        simp only [Option.map_some'] at he
        have he2 : eraseRB rb1 = eraseRB rb2 := Option.some.inj he
        simp only [renderFrameBlocksFrom, h1, h2, List.map_cons]
        rw [he2, ih (i + 1) (j + 1)]

theorem renderFrame_skip (tb : String → Option (Nat × Nat))
    (b : ContentBlock) (hb : ∀ i, renderBlock b i tb = none) :
    ∀ (pre post : List ContentBlock) (i : Nat),
      (renderFrameBlocksFrom i tb (pre ++ b :: post)).map eraseRB =
        (renderFrameBlocksFrom i tb (pre ++ post)).map eraseRB := by
  intro pre
  induction pre with
  | nil =>
    intro post i
    simp only [List.nil_append, renderFrameBlocksFrom, hb i]
    exact renderFrame_erase tb post (i + 1) i
  | cons p pre ih =>
    intro post i
    simp only [List.cons_append, renderFrameBlocksFrom]
    cases hp : renderBlock p i tb with
    | none => exact ih post (i + 1)
    | some rb =>
      simp only [List.map_cons]
      exact congrArg (fun l => eraseRB rb :: l) (ih post (i + 1))

theorem totalSpacing_congr : ∀ {rbs1 rbs2 : List RenderedBlock},
    rbs1.map eraseRB = rbs2.map eraseRB →
    totalSpacing rbs1 = totalSpacing rbs2 := by
  intro rbs1
  induction rbs1 with
  | nil =>
    intro rbs2 h
    have : rbs2 = [] := by
      cases rbs2 with
      | nil => rfl
      | cons _ _ => simp at h
    rw [this]
  | cons rb1 rest1 ih =>
    intro rbs2 h
    cases rbs2 with
    | nil => simp at h
    | cons rb2 rest2 =>
      simp only [List.map_cons, List.cons.injEq] at h
      obtain ⟨hhd, htl⟩ := h
      have hs : rb1.steps = rb2.steps := congrArg Prod.fst hhd
      have hsp : rb1.spacing = rb2.spacing := congrArg (fun p => p.2.2) hhd
      cases rest1 with
      | nil =>
        cases rest2 with
        | nil => rfl
        | cons _ _ => simp at htl
      | cons r1 rr1 =>
        cases rest2 with
        | nil => simp at htl
        | cons r2 rr2 =>
          simp only [totalSpacing]
          rw [hs, hsp, ih htl]

theorem mapContribution_congr (cw : ℚ) :
    ∀ {rbs1 rbs2 : List RenderedBlock},
      rbs1.map eraseRB = rbs2.map eraseRB →
      rbs1.map (blockContribution cw) = rbs2.map (blockContribution cw) := by
  intro rbs1
  induction rbs1 with
  | nil =>
    intro rbs2 h
    have : rbs2 = [] := by
      cases rbs2 with
      | nil => rfl
      | cons _ _ => simp at h
    rw [this]
  | cons rb1 rest1 ih =>
    intro rbs2 h
    cases rbs2 with
    | nil => simp at h
    | cons rb2 rest2 =>
      simp only [List.map_cons, List.cons.injEq] at h
      obtain ⟨hhd, htl⟩ := h
      have hs : rb1.steps = rb2.steps := congrArg Prod.fst hhd
      simp only [List.map_cons]
      rw [ih htl, show blockContribution cw rb1 = blockContribution cw rb2
        from by rw [blockContribution, blockContribution, hs]]

theorem fitContentWidth_congr (hasBg : Bool) (cw : ℚ)
    {rbs1 rbs2 : List RenderedBlock}
    (h : rbs1.map eraseRB = rbs2.map eraseRB) :
    fitContentWidth rbs1 hasBg cw = fitContentWidth rbs2 hasBg cw := by
  by_cases h1 : rbs1 = []
  · subst h1
    have : rbs2 = [] := by
      cases rbs2 with
      | nil => rfl
      | cons _ _ => simp at h
    rw [this]
  · have h2 : rbs2 ≠ [] := by
      intro hh
      subst hh
      simp at h
      exact h1 h
    have htih : totalImageHeight cw rbs1 = totalImageHeight cw rbs2 := by
      rw [totalImageHeight, totalImageHeight, mapContribution_congr cw h]
    have htsp := totalSpacing_congr h
    simp only [fitContentWidth, if_neg h1, if_neg h2, htih, htsp]

/-- `shapes_by_block` as handed to `_add_animations`: one tuple per
successfully rendered block, its shapes being its placed step images. -/
def shapesByBlock (rbs : List RenderedBlock) : List (Nat × List Step × Bool) :=
  rbs.map (fun rb => (rb.blockIdx, rb.steps, rb.isAnimated))

/-- The animation event trace of a slide's rendered blocks. -/
def animEventsOf (rbs : List RenderedBlock) : List (AnimEvent Step) :=
  addAnimations (shapesByBlock rbs)

theorem addAnimationsFrom_proj {α : Type} :
    ∀ (l1 l2 : List (Nat × List α × Bool)) (c : Nat),
      l1.map (fun t => t.2.1) = l2.map (fun t => t.2.1) →
      addAnimationsFrom c l1 = addAnimationsFrom c l2 := by
  intro l1
  induction l1 with
  | nil =>
    intro l2 c h
    cases l2 with
    | nil => rfl
    | cons _ _ => simp at h
  | cons t1 rest1 ih =>
    intro l2 c h
    cases l2 with
    | nil => simp at h
    | cons t2 rest2 =>
      simp only [List.map_cons, List.cons.injEq] at h
      obtain ⟨hhd, htl⟩ := h
      obtain ⟨i1, s1, a1⟩ := t1
      obtain ⟨i2, s2, a2⟩ := t2
      simp only at hhd
      subst hhd
      cases s1 with
      | nil =>
        simp only [addAnimationsFrom]
        exact ih rest2 c htl
      | cons s0 srest =>
        simp only [addAnimationsFrom]
        rw [ih rest2 _ htl]

theorem animEventsOf_congr {rbs1 rbs2 : List RenderedBlock}
    (h : rbs1.map eraseRB = rbs2.map eraseRB) :
    animEventsOf rbs1 = animEventsOf rbs2 := by
  have hproj : ∀ rbs : List RenderedBlock,
      (shapesByBlock rbs).map (fun t => t.2.1) =
        (rbs.map eraseRB).map (fun e => e.1) := by
    intro rbs
    rw [shapesByBlock, List.map_map, List.map_map]
    rfl
  have hsteps : (shapesByBlock rbs1).map (fun t => t.2.1) =
      (shapesByBlock rbs2).map (fun t => t.2.1) := by
    rw [hproj, hproj, h]
  rw [animEventsOf, animEventsOf, addAnimations, addAnimations,
      addAnimationsFrom_proj _ _ 0 hsteps]

/-- C6: (a) a cumulative render keeps exactly the steps whose fragment
the typesetting oracle accepts, in order — a failing step is absent, the
others are kept; (b) a block all of whose submitted fragments fail
contributes no rendered block; (c) removing such a block from a frame
changes neither the computed content width nor the animation event trace
of the remaining blocks — the rest of the slide is still laid out,
placed and animated. -/
theorem c6_step_and_block_failure_policy :
    (∀ (lines : List String) (env : String) (tb : String → Option (Nat × Nat)),
      (renderAlignCumulative lines env tb).map Step.idx =
        (List.range' 1 lines.length).filter
          (fun n => (tb (alignFragment env (lines.take n))).isSome)) ∧
    (∀ (b : ContentBlock) (idx : Nat) (tb : String → Option (Nat × Nat)),
      (∀ f ∈ blockFragments b, tb f = none) → renderBlock b idx tb = none) ∧
    (∀ (b : ContentBlock) (tb : String → Option (Nat × Nat))
        (pre post : List ContentBlock) (hasBg : Bool) (cw : ℚ),
      (∀ i, renderBlock b i tb = none) →
      fitContentWidth (renderFrameBlocksFrom 0 tb (pre ++ b :: post)) hasBg cw =
          fitContentWidth (renderFrameBlocksFrom 0 tb (pre ++ post)) hasBg cw ∧
        animEventsOf (renderFrameBlocksFrom 0 tb (pre ++ b :: post)) =
          animEventsOf (renderFrameBlocksFrom 0 tb (pre ++ post))) := by
  refine ⟨?_, renderBlock_none_of_fragments_fail, ?_⟩
  · intro lines env tb
    exact renderCumulFrom_map_idx (alignFragment env) lines tb lines.length 1
  · intro b tb pre post hasBg cw hb
    have hskip := renderFrame_skip tb b hb pre post 0
    exact ⟨fitContentWidth_congr hasBg cw hskip, animEventsOf_congr hskip⟩

/-- Witness for `c6_step_and_block_failure_policy`: a DisplayMath block
whose only fragment fails, alone on its frame. -/
theorem c6_step_and_block_failure_policy_witness :
    renderBlock ⟨.displayMath, "x", []⟩ 5 (fun _ => none) = none ∧
    fitContentWidth (renderFrameBlocksFrom 0 (fun _ => none)
          ([] ++ ⟨.displayMath, "x", []⟩ :: [])) false 10 =
        fitContentWidth (renderFrameBlocksFrom 0 (fun _ => none) ([] ++ []))
          false 10 ∧
      animEventsOf (renderFrameBlocksFrom 0 (fun _ => none)
          ([] ++ ⟨.displayMath, "x", []⟩ :: [])) =
        animEventsOf (renderFrameBlocksFrom 0 (fun _ => none) ([] ++ [])) :=
  ⟨c6_step_and_block_failure_policy.2.1 ⟨.displayMath, "x", []⟩ 5
      (fun _ => none) (fun _ _ => rfl),
   c6_step_and_block_failure_policy.2.2 ⟨.displayMath, "x", []⟩
      (fun _ => none) [] [] false 10 (fun _ => rfl)⟩

end B2A
